import Mathlib

/-!
# Verification of the statute structuring engine

A shallow embedding, in Lean 4, of the jurisdiction-aware statute
structuring engine of this repository (the `parsers` package): the
article segmenter for the English/EPC grammar, the paragraph/item
decomposers for the English and Korean grammars, the hierarchy joining
rule of the orchestrator, and the Taiwan (Chinese) pipeline from raw
text to structured records.

Text is modelled as `List Char`.  The Python regular expressions used by
the source are compiled by hand into executable matchers over that
representation; `re.finditer` / `re.sub` scanning (leftmost match,
non-overlapping, resume after the match) is implemented once as generic
scanners (`scanIter`, `scanSub`) and instantiated per pattern.  Python's
`\s` and `str.strip()` are modelled over the ASCII whitespace class, and
`\w` over ASCII alphanumerics, the underscore, and all non-ASCII
codepoints (the scripts that appear in this repository's inputs — Hangul
and CJK — are word characters for Python's Unicode `\w`).

`_split_english` (src/parsers/epc.py) is embedded on the inputs that do
not contain the marker string "European Patent Convention": on such
inputs the EPC-specific pre-cleaning pass `_clean_epc_annotations` is
skipped by the source, and every theorem about the English splitter
carries that domain condition as an explicit hypothesis
(`hasEpcMark text = false`).
-/

set_option maxRecDepth 4000

abbrev Txt := List Char

/-- Python's `\s` over ASCII: space, tab, newline, carriage return,
vertical tab, form feed. -/
def isPySpace (c : Char) : Bool :=
  c = ' ' || c = '\t' || c = '\n' || c = '\r' || c = '\x0b' || c = '\x0c'

def isAsciiDigit (c : Char) : Bool := '0' ≤ c && c ≤ '9'

def isAsciiAlpha (c : Char) : Bool :=
  ('a' ≤ c && c ≤ 'z') || ('A' ≤ c && c ≤ 'Z')

/-- Python's `\w` restricted to the scripts of this repository's inputs:
ASCII alphanumerics and underscore, and every non-ASCII codepoint
(Hangul/CJK, which Python treats as word characters). -/
def isWordChar (c : Char) : Bool :=
  isAsciiAlpha c || isAsciiDigit c || c = '_' || decide (0x80 ≤ c.toNat)

def toLowerCh (c : Char) : Char :=
  if 'A' ≤ c && c ≤ 'Z' then Char.ofNat (c.toNat + 32) else c

def toUpperCh (c : Char) : Char :=
  if 'a' ≤ c && c ≤ 'z' then Char.ofNat (c.toNat - 32) else c

def lowerTxt (s : Txt) : Txt := s.map toLowerCh

def upperTxt (s : Txt) : Txt := s.map toUpperCh

/-- Python `str.strip()`: drop whitespace from both ends. -/
def pyStrip (s : Txt) : Txt :=
  ((s.dropWhile isPySpace).reverse.dropWhile isPySpace).reverse

/-- Python slice `s[a:b]` (for `a ≤ b`; clamps at the ends). -/
def pySlice (s : Txt) (a b : Nat) : Txt := (s.drop a).take (b - a)

/-- Source: `hasPre p s`: `p` is a prefix of `s` (Python `s.startswith(p)`). -/
def hasPre : Txt → Txt → Bool
  | [], _ => true
  | _ :: _, [] => false
  | p :: ps, c :: cs => p = c && hasPre ps cs

/-- Python `pat in s` (substring containment). -/
def containsSub (s pat : Txt) : Bool :=
  hasPre pat s ||
    match s with
    | [] => false
    | _ :: t => containsSub t pat

/-- Fuelled helper for `countSub`; the fuel bounds the number of scan
steps and is instantiated with the text length, which suffices because
every step consumes at least one character. -/
def countSubF (pat : Txt) : Nat → Txt → Nat
  | 0, _ => 0
  | _, [] => 0
  | fuel + 1, c :: t =>
    if !pat.isEmpty && hasPre pat (c :: t) then
      1 + countSubF pat fuel ((c :: t).drop pat.length)
    else
      countSubF pat fuel t

/-- Number of non-overlapping occurrences of a (nonempty) pattern. -/
def countSub (pat : Txt) (s : Txt) : Nat := countSubF pat s.length s

/-- Length of the first maximal digit run (`re.search(r"\d+", s)`), 0 if
no digit occurs. -/
def firstDigitRunLen (s : Txt) : Nat :=
  ((s.dropWhile (fun c => !isAsciiDigit c)).takeWhile isAsciiDigit).length

/-- Python `s.find(pat)`: first index at which `pat` occurs, else -1. -/
def pyFind (s pat : Txt) : Int :=
  if hasPre pat s then 0
  else
    match s with
    | [] => -1
    | _ :: t =>
      match pyFind t pat with
      | -1 => -1
      | n => n + 1

/-- Generic `re.finditer` scanner (fuelled form; the fuel is
instantiated with the text length, which suffices because every step
consumes at least one character).  `m prev s` attempts a match at the
position whose remaining input is `s` and whose preceding character is
`prev` (`none` at position 0); it returns the consumed length and a
payload.  Matching resumes after each match (non-overlapping), and
advances one character on failure. -/
def scanIterF {α : Type} (m : Option Char → Txt → Option (Nat × α)) :
    Nat → Option Char → Nat → Txt → List (Nat × Nat × α)
  | 0, _, _, _ => []
  | _, _, _, [] => []
  | fuel + 1, prev, pos, c :: t =>
    match m prev (c :: t) with
    | some (n, a) =>
      let k := n.max 1
      (pos, n, a) :: scanIterF m fuel ((c :: t).get? (k - 1)) (pos + k) ((c :: t).drop k)
    | none => scanIterF m fuel (some c) (pos + 1) t

def scanIter {α : Type} (m : Option Char → Txt → Option (Nat × α))
    (prev : Option Char) (pos : Nat) (s : Txt) : List (Nat × Nat × α) :=
  scanIterF m s.length prev pos s

/-- Generic `re.sub(pattern, "", s)` scanner (fuelled form, like
`scanIterF`): `m prev s` returns the length of a match at the current
position (`some (n+1)`; a `some 0` is treated as no match).  Matched
spans are deleted. -/
def scanSubF (m : Option Char → Txt → Option Nat) : Nat → Option Char → Txt → Txt
  | 0, _, s => s
  | _, _, [] => []
  | fuel + 1, prev, c :: t =>
    match m prev (c :: t) with
    | some (n + 1) =>
      scanSubF m fuel ((c :: t).get? n) ((c :: t).drop (n + 1))
    | _ => c :: scanSubF m fuel (some c) t

def scanSub (m : Option Char → Txt → Option Nat) (prev : Option Char) (s : Txt) : Txt :=
  scanSubF m s.length prev s

/-- From a `scanIter` result list, the spans between a match's end and
the next match's start (or the end of text), stripped — the common
`start = match.end(); end = next.start(); text[start:end].strip()`
idiom of the source.  Pairs each span with the match's payload. -/
def spansAfter {α : Type} (text : Txt) : List (Nat × Nat × α) → List (α × Txt)
  | [] => []
  | (p, n, a) :: rest =>
    let e := match rest with
      | (p2, _, _) :: _ => p2
      | [] => text.length
    (a, pyStrip (pySlice text (p + n) e)) :: spansAfter text rest

/-- Source: `if text[start:start+1] == "\n": start += 1` (epc.py, korea.py,
taiwan.py, usa.py). -/
def adjStart (text : Txt) (start : Nat) : Nat :=
  match text.drop start with
  | '\n' :: _ => start + 1
  | _ => start

/-- Case-insensitive literal: if the lowered input starts with `kw`
(itself lowercase), return its length. -/
def matchKwCI (kw : Txt) (s : Txt) : Option Nat :=
  if hasPre kw (lowerTxt (s.take kw.length)) then some kw.length else none

/-- First of several case-insensitive literal alternatives (in order). -/
def matchAltCI (kws : List Txt) (s : Txt) : Option Nat :=
  match kws with
  | [] => none
  | kw :: rest =>
    match matchKwCI kw s with
    | some n => some n
    | none => matchAltCI rest s

/-- Wrap a core matcher with the `(?:^|\n)` idiom of the source's
line-anchored patterns: at position 0 try the core directly (the `^`
alternative), otherwise—and as fallback at position 0—require and
consume a newline first. -/
def anchorNl {α : Type} (core : Txt → Option (Nat × α))
    (prev : Option Char) (s : Txt) : Option (Nat × α) :=
  match prev with
  | none =>
    match core s with
    | some r => some r
    | none =>
      match s with
      | '\n' :: t => (core t).map (fun (n, a) => (n + 1, a))
      | _ => none
  | some _ =>
    match s with
    | '\n' :: t => (core t).map (fun (n, a) => (n + 1, a))
    | _ => none

/-! ## English/EPC article segmenter (`_split_english`, src/parsers/epc.py) -/

/-- Core of `(?:Article|Section|Rule|Regulation)\s+\d+[A-Za-z]*\b`
(IGNORECASE), returning (consumed length, group 1). -/
def enHeaderCore (s : Txt) : Option (Nat × Txt) :=
  match matchAltCI ["article".toList, "section".toList, "rule".toList, "regulation".toList] s with
  | none => none
  | some kwLen =>
    let s1 := s.drop kwLen
    let ws := (s1.takeWhile isPySpace).length
    if ws = 0 then none
    else
      let s2 := s1.drop ws
      let ds := (s2.takeWhile isAsciiDigit).length
      if ds = 0 then none
      else
        let s3 := s2.drop ds
        let ls := (s3.takeWhile isAsciiAlpha).length
        let s4 := s3.drop ls
        let boundary := match s4 with
          | [] => true
          | c :: _ => !isWordChar c
        if boundary then
          let total := kwLen + ws + ds + ls
          some (total, s.take total)
        else none

/-- Source: `(?:^|\n)((?:Article|Section|Rule|Regulation)\s+\d+[A-Za-z]*)\b`. -/
def matchEnHeader : Option Char → Txt → Option (Nat × Txt) :=
  anchorNl enHeaderCore

/-- All line-anchored English article-boundary candidates
(`pattern.finditer(text)`); entries are (start, length, group 1). -/
def enCandidates (text : Txt) : List (Nat × Nat × Txt) :=
  scanIter matchEnHeader none 0 text

/-- An article unit as the splitters build it: `{"id": ..., "text": ...}`
plus the optional `"deleted"` flag. -/
structure RawArt where
  id : Txt
  text : Txt
  deleted : Bool
deriving DecidableEq

/-- First pass of `_split_english`: cut the text at each candidate,
skip empty chunks, and skip ids whose embedded numeral is longer than 4
digits (the broken-line-wrap filter). -/
def rawEnAux (text : Txt) : List (Nat × Nat × Txt) → List RawArt
  | [] => []
  | (s0, _, g1) :: rest =>
    let endPos := match rest with
      | (s1, _, _) :: _ => s1
      | [] => text.length
    let start := adjStart text s0
    let chunk := pyStrip (pySlice text start endPos)
    let aid := pyStrip g1
    let tail := rawEnAux text rest
    if chunk = [] then tail
    else if 4 < firstDigitRunLen aid then tail
    else ⟨aid, chunk, false⟩ :: tail

/-- Source: `[IVX]` with IGNORECASE. -/
def isRomanIVX (c : Char) : Bool :=
  c = 'I' || c = 'V' || c = 'X' || c = 'i' || c = 'v' || c = 'x'

/-- Source: `[IVX0-9]` with IGNORECASE. -/
def isRomanIVXD (c : Char) : Bool := isRomanIVX c || isAsciiDigit c

/-- Core of the hierarchy-title line patterns used to clean article
bodies: keyword (CI), `\s+`, a run of the numbering class, `[^\n]*`,
then optionally a trailing newline (`withNl`). -/
def hierLineCore (kw : Txt) (cls : Char → Bool) (withNl : Bool) (s : Txt) : Option Nat :=
  match matchKwCI kw s with
  | none => none
  | some kwLen =>
    let s1 := s.drop kwLen
    let ws := (s1.takeWhile isPySpace).length
    if ws = 0 then none
    else
      let s2 := s1.drop ws
      let rs := (s2.takeWhile cls).length
      if rs = 0 then none
      else
        let s3 := s2.drop rs
        let line := (s3.takeWhile (fun c => c ≠ '\n')).length
        let s4 := s3.drop line
        let nl := if withNl then (match s4 with | '\n' :: _ => 1 | _ => 0) else 0
        some (kwLen + ws + rs + line + nl)

/-- Source: `^(?:KW|kw)\s+[cls]+[^\n]*\n?` with `re.MULTILINE`: anchored at a
line start (position 0 or just after a newline). -/
def hierSubLineStart (kw : Txt) (cls : Char → Bool)
    (prev : Option Char) (s : Txt) : Option Nat :=
  let lineStart := match prev with
    | none => true
    | some c => c = '\n'
  if lineStart then hierLineCore kw cls true s else none

/-- Source: `\nKW\s+[cls]+[^\n]*` (no MULTILINE): the newline is part of the
match. -/
def hierSubAfterNl (kw : Txt) (cls : Char → Bool)
    (_prev : Option Char) (s : Txt) : Option Nat :=
  match s with
  | '\n' :: t => (hierLineCore kw cls false t).map (· + 1)
  | _ => none

/-- The six `hierarchy_patterns` substitutions of `_split_english`,
applied in source order to a candidate body. -/
def hierSubs (s : Txt) : Txt :=
  let s1 := scanSub (hierSubLineStart "part".toList isRomanIVX) none s
  let s2 := scanSub (hierSubLineStart "chapter".toList isRomanIVXD) none s1
  let s3 := scanSub (hierSubLineStart "section".toList isRomanIVX) none s2
  let s4 := scanSub (hierSubAfterNl "part".toList isRomanIVX) none s3
  let s5 := scanSub (hierSubAfterNl "chapter".toList isRomanIVXD) none s4
  scanSub (hierSubAfterNl "section".toList isRomanIVX) none s5

/-- Second pass: strip leaked hierarchy-title lines from each body. -/
def cleanRaw (l : List RawArt) : List RawArt :=
  l.map (fun a => { a with text := pyStrip (hierSubs a.text) })

/-- Source: `re.search(r"\(deleted\)|\(repealed\)", t, re.IGNORECASE)`. -/
def delMarker (t : Txt) : Bool :=
  containsSub (lowerTxt t) "(deleted)".toList ||
    containsSub (lowerTxt t) "(repealed)".toList

/-- Third pass: flag deleted/repealed articles. -/
def markDeleted (l : List RawArt) : List RawArt :=
  l.map (fun a => if delMarker a.text then { a with deleted := true } else a)

/-- One step of the duplicate-id resolution (`seen` dict): if the id is
present, replace the stored entry in place when the new body is strictly
longer; otherwise append the entry at the end (Python dicts preserve key
insertion order). -/
def dedupIns (acc : List RawArt) (a : RawArt) : List RawArt :=
  match acc with
  | [] => [a]
  | b :: bs =>
    if b.id = a.id then
      (if b.text.length < a.text.length then a else b) :: bs
    else
      b :: dedupIns bs a

/-- Fourth pass: keep only the longest body per id. -/
def dedupL (l : List RawArt) : List RawArt := l.foldl dedupIns []

/-- Fifth pass: drop bodies shorter than `MIN_CONTENT_LEN = 80`, except
deleted articles. -/
def lenFilter (l : List RawArt) : List RawArt :=
  l.filter (fun a => 80 ≤ a.text.length || a.deleted)

/-- The loop building `id_order`, with its accumulator. -/
def idOrderGo (fk : List Txt) : List RawArt → List Txt → List Txt
  | [], acc => acc
  | a :: t, acc =>
    idOrderGo fk t (if fk.contains a.id && !acc.contains a.id then acc ++ [a.id] else acc)

/-- Source: `id_order`: first-occurrence order over the raw list, restricted to
ids that survived filtering. -/
def idOrderAux (raw : List RawArt) (fk : List Txt) : List Txt :=
  idOrderGo fk raw []

/-- Dictionary lookup by id (ids are unique after `dedupL`). -/
def lookupId : List RawArt → Txt → Option RawArt
  | [], _ => none
  | a :: t, aid => if a.id = aid then some a else lookupId t aid

/-- The synthetic preamble id `"전문"`. -/
def jeonmun : Txt := "전문".toList

/-- The `" (삭제)"` id suffix for deleted articles. -/
def delSuffix : Txt := " (삭제)".toList

/-- The `"(삭제)"` sentinel body for deleted articles. -/
def delSentinel : Txt := "(삭제)".toList

/-- The raw candidate list of `_split_english` after hierarchy-line
cleaning and deletion marking (the list the dedup stage consumes). -/
def enRawProcessed (text : Txt) : List RawArt :=
  markDeleted (cleanRaw (rawEnAux text (enCandidates text)))

/-- Whether the EPC margin-annotation pre-clean would fire
(`"European Patent Convention" in text`). -/
def hasEpcMark (text : Txt) : Bool :=
  containsSub text "European Patent Convention".toList

/-- Source: `_split_english` (src/parsers/epc.py), embedded on inputs with
`hasEpcMark text = false` (on which the source skips
`_clean_epc_annotations`). -/
def splitEnglish (text : Txt) : List RawArt :=
  let cands := enCandidates text
  match cands with
  | [] => if pyStrip text = [] then [] else [⟨jeonmun, pyStrip text, false⟩]
  | (s0, _, _) :: _ =>
    let raw := enRawProcessed text
    let seen := dedupL raw
    let filtered := lenFilter seen
    let ids := idOrderAux raw (filtered.map (fun a => a.id))
    let fs := adjStart text s0
    let preamble := pyStrip (pySlice text 0 fs)
    let pre : List RawArt := if preamble = [] then [] else [⟨jeonmun, preamble, false⟩]
    pre ++ ids.filterMap (fun aid =>
      (lookupId filtered aid).map (fun e =>
        if e.deleted then ⟨e.id ++ delSuffix, delSentinel, true⟩ else e))

/-! ## English paragraph/item decomposer
(`_parse_paragraphs_english`, src/parsers/epc.py) -/

/-- A paragraph-level output row:
`{"paragraph", "item", "subitem", "subsubitem", "text"}`. -/
structure ParaRow where
  paragraph : Txt
  item : Txt
  subitem : Txt
  subsubitem : Txt
  text : Txt
deriving DecidableEq

/-- Core of `\((\d+)\)\s+` preceded by `\s*`: used with the `(?:^|\n)`
anchor.  Returns (consumed length, captured digits). -/
def parenNumCore (s : Txt) : Option (Nat × Txt) :=
  let ws := (s.takeWhile isPySpace).length
  let s1 := s.drop ws
  match s1 with
  | '(' :: s2 =>
    let ds := s2.takeWhile isAsciiDigit
    if ds = [] then none
    else
      match s2.drop ds.length with
      | ')' :: s3 =>
        let ws2 := (s3.takeWhile isPySpace).length
        if ws2 = 0 then none
        else some (ws + 1 + ds.length + 1 + ws2, ds)
      | _ => none
  | _ => none

/-- Source: `(?:^|\n)\s*\((\d+)\)\s+` — the English paragraph marker. -/
def matchParenNum : Option Char → Txt → Option (Nat × Txt) :=
  anchorNl parenNumCore

/-- Source: `[a-hj-uw-z]` — ASCII lowercase letters except `i`, `v`, `x`. -/
def isItemLetterEn (c : Char) : Bool :=
  ('a' ≤ c && c ≤ 'h') || ('j' ≤ c && c ≤ 'u') || ('w' ≤ c && c ≤ 'z')

/-- Source: `[ivxlcdm]` — lowercase roman-numeral letters. -/
def isRomanLower (c : Char) : Bool :=
  c = 'i' || c = 'v' || c = 'x' || c = 'l' || c = 'c' || c = 'd' || c = 'm'

/-- Core of `\(([a-hj-uw-z])\)\s+` preceded by `\s*`. -/
def itemLetterCore (s : Txt) : Option (Nat × Txt) :=
  let ws := (s.takeWhile isPySpace).length
  let s1 := s.drop ws
  match s1 with
  | '(' :: c :: ')' :: s3 =>
    if isItemLetterEn c then
      let ws2 := (s3.takeWhile isPySpace).length
      if ws2 = 0 then none else some (ws + 3 + ws2, [c])
    else none
  | _ => none

/-- Source: `(?:^|\n)\s*\(([a-hj-uw-z])\)\s+` — the English item marker. -/
def matchItemEn : Option Char → Txt → Option (Nat × Txt) :=
  anchorNl itemLetterCore

/-- Core of `\(([ivxlcdm]+)\)\s+` preceded by `\s*`. -/
def romanParenCore (s : Txt) : Option (Nat × Txt) :=
  let ws := (s.takeWhile isPySpace).length
  let s1 := s.drop ws
  match s1 with
  | '(' :: s2 =>
    let rs := s2.takeWhile isRomanLower
    if rs = [] then none
    else
      match s2.drop rs.length with
      | ')' :: s3 =>
        let ws2 := (s3.takeWhile isPySpace).length
        if ws2 = 0 then none
        else some (ws + 1 + rs.length + 1 + ws2, rs)
      | _ => none
  | _ => none

/-- Source: `(?:^|\n)\s*\(([ivxlcdm]+)\)\s+` — the English subitem marker. -/
def matchRomanParen : Option Char → Txt → Option (Nat × Txt) :=
  anchorNl romanParenCore

/-- One occurrence of `\bmeans\b` (case-sensitive). -/
def matchMeans (prev : Option Char) (s : Txt) : Option (Nat × Unit) :=
  let okLeft := match prev with
    | none => true
    | some c => !isWordChar c
  if okLeft && hasPre "means".toList s then
    match s.drop 5 with
    | [] => some (5, ())
    | c :: _ => if isWordChar c then none else some (5, ())
  else none

/-- Source: `len(re.findall(r'\bmeans\b', t))`. -/
def meansCount (t : Txt) : Nat := (scanIter matchMeans none 0 t).length

/-- Source: `_is_definition_paragraph`: three or more `\bmeans\b` occurrences, or
the "unless the context otherwise requires" phrase. -/
def isDefnPara (t : Txt) : Bool :=
  decide (3 ≤ meansCount t) ||
    containsSub (lowerTxt t) "unless the context otherwise requires".toList

/-- Item-level processing of `_parse_paragraphs_english`: split an item
span at subitem markers (no lead text is emitted at this level). -/
def processItemEn (paraNum itemLetter : Txt) (itemText : Txt) : List ParaRow :=
  let subs := scanIter matchRomanParen none 0 itemText
  match subs with
  | [] => [⟨paraNum, itemLetter, [], [], itemText⟩]
  | _ =>
    (spansAfter itemText subs).map (fun (r, st) => ⟨paraNum, itemLetter, r, [], st⟩)

/-- Paragraph-level processing of `_parse_paragraphs_english`: a
definition-heavy span is kept whole; otherwise it is split at item
markers, with the lead text before the first item emitted on its own. -/
def processSpanEn (paraNum : Txt) (paraText : Txt) : List ParaRow :=
  if isDefnPara paraText then
    [⟨paraNum, [], [], [], paraText⟩]
  else
    let items := scanIter matchItemEn none 0 paraText
    match items with
    | [] => [⟨paraNum, [], [], [], paraText⟩]
    | (p, _, _) :: _ =>
      let lead := pyStrip (paraText.take p)
      (if lead = [] then [] else [⟨paraNum, [], [], [], lead⟩]) ++
        (spansAfter paraText items).flatMap (fun (l, it) => processItemEn paraNum l it)

/-- Source: `_parse_paragraphs_english` (src/parsers/epc.py). -/
def parseParagraphsEn (text : Txt) : List ParaRow :=
  let paras := scanIter matchParenNum none 0 text
  match paras with
  | [] => []
  | _ => (spansAfter text paras).flatMap (fun (n, t) => processSpanEn n t)

/-! ## Korean paragraph/item decomposer
(`_parse_paragraphs_korean`, src/parsers/korea.py) -/

/-- The circled paragraph digits `①`–`⑳`. -/
def circledChars : Txt := "①②③④⑤⑥⑦⑧⑨⑩⑪⑫⑬⑭⑮⑯⑰⑱⑲⑳".toList

/-- One circled-digit paragraph marker (a single-character match). -/
def matchCircled (_prev : Option Char) (s : Txt) : Option (Nat × Char) :=
  match s with
  | c :: _ => if circledChars.contains c then some (1, c) else none
  | [] => none

/-- A Hangul syllable (`[가-힣]`). -/
def isHangulSyl (c : Char) : Bool :=
  decide (0xAC00 ≤ c.toNat) && decide (c.toNat ≤ 0xD7A3)

/-- Core of `\s*(?:제\s*)?(\d{1,3})(?:\.\s+|호\s*)` (the Korean item
marker body, after the `(?:^|\n)` anchor).  `\d{1,3}` with the following
alternation is resolved by trying the greedy digit count first. -/
def krItemCore (s : Txt) : Option (Nat × Txt) :=
  let ws := (s.takeWhile isPySpace).length
  let s1 := s.drop ws
  let (jeLen, s2) := match s1 with
    | '제' :: t =>
      let w2 := (t.takeWhile isPySpace).length
      (1 + w2, t.drop w2)
    | _ => (0, s1)
  let ds := s2.takeWhile isAsciiDigit
  if ds = [] then none
  else
    let tryLen := fun (m : Nat) =>
      let dsm := ds.take m
      let s3 := s2.drop m
      match s3 with
      | '.' :: s4 =>
        let w := (s4.takeWhile isPySpace).length
        if w = 0 then none else some (ws + jeLen + m + 1 + w, dsm)
      | '호' :: s4 =>
        let w := (s4.takeWhile isPySpace).length
        some (ws + jeLen + m + 1 + w, dsm)
      | _ => none
    let m0 := min ds.length 3
    match tryLen m0 with
    | some r => some r
    | none =>
      match (if 2 ≤ m0 then tryLen (m0 - 1) else none) with
      | some r => some r
      | none => if 3 ≤ m0 then tryLen (m0 - 2) else none

/-- Source: `(?:^|\n)\s*(?:제\s*)?(\d{1,3})(?:\.\s+|호\s*)`. -/
def matchKrItem : Option Char → Txt → Option (Nat × Txt) :=
  anchorNl krItemCore

/-- The reference particles excluded after a Korean item number
(`부터|까지|에|의|를|을|와|과|로|으로|이|가|는|만|도`). -/
def krParticles : List Txt :=
  ["부터".toList, "까지".toList, "에".toList, "의".toList, "를".toList,
   "을".toList, "와".toList, "과".toList, "로".toList, "으로".toList,
   "이".toList, "가".toList, "는".toList, "만".toList, "도".toList]

/-- The two exclusion checks applied to a raw Korean item match at
`(start, len)` within `paraText`: a reference particle right after the
match, or an unclosed opening parenthesis in the 20 characters before
it. -/
def krItemOK (paraText : Txt) (start len : Nat) : Bool :=
  let sfx := pySlice paraText (start + len) (start + len + 10)
  let sfx1 := sfx.dropWhile isPySpace
  let isRef := krParticles.any (fun pt => hasPre pt sfx1)
  let pre := pySlice paraText (start - min start 20) start
  let inParen := pre.contains '(' && !pre.contains ')'
  !isRef && !inParen

/-- Core of `\s*([가-힣])(?:\.\s+|목\s*)` (the Korean subitem marker). -/
def krSubCore (s : Txt) : Option (Nat × Txt) :=
  let ws := (s.takeWhile isPySpace).length
  let s1 := s.drop ws
  match s1 with
  | c :: s2 =>
    if isHangulSyl c then
      match s2 with
      | '.' :: s3 =>
        let w := (s3.takeWhile isPySpace).length
        if w = 0 then none else some (ws + 2 + w, [c])
      | '목' :: s3 =>
        let w := (s3.takeWhile isPySpace).length
        some (ws + 2 + w, [c])
      | _ => none
    else none
  | [] => none

/-- Source: `(?:^|\n)\s*([가-힣])(?:\.\s+|목\s*)`. -/
def matchKrSub : Option Char → Txt → Option (Nat × Txt) :=
  anchorNl krSubCore

/-- Core of `\s*(?:(\d{1,2})|([가-힣]))\)\s+` (the Korean sub-subitem
marker). -/
def krSubsubCore (s : Txt) : Option (Nat × Txt) :=
  let ws := (s.takeWhile isPySpace).length
  let s1 := s.drop ws
  let tryDigits := fun (m : Nat) =>
    let ds := (s1.takeWhile isAsciiDigit).take m
    if ds.length ≠ m then none
    else
      match s1.drop m with
      | ')' :: s3 =>
        let w := (s3.takeWhile isPySpace).length
        if w = 0 then none else some (ws + m + 1 + w, ds)
      | _ => none
  match tryDigits 2 with
  | some r => some r
  | none =>
    match tryDigits 1 with
    | some r => some r
    | none =>
      match s1 with
      | c :: ')' :: s3 =>
        if isHangulSyl c then
          let w := (s3.takeWhile isPySpace).length
          if w = 0 then none else some (ws + 2 + w, [c])
        else none
      | _ => none

/-- Source: `(?:^|\n)\s*(?:(\d{1,2})|([가-힣]))\)\s+`. -/
def matchKrSubsub : Option Char → Txt → Option (Nat × Txt) :=
  anchorNl krSubsubCore

/-- Sub-subitem level of `_parse_paragraphs_korean`. -/
def processKrSub (pn itn sic : Txt) (subText : Txt) : List ParaRow :=
  let subsubs := scanIter matchKrSubsub none 0 subText
  match subsubs with
  | [] => [⟨pn, itn, sic, [], subText⟩]
  | _ =>
    (spansAfter subText subsubs).map (fun (v, st) => ⟨pn, itn, sic, v, st⟩)

/-- Subitem level of `_parse_paragraphs_korean`. -/
def processKrItem (pn itn : Txt) (itemText : Txt) : List ParaRow :=
  let subs := scanIter matchKrSub none 0 itemText
  match subs with
  | [] => [⟨pn, itn, [], [], itemText⟩]
  | _ =>
    (spansAfter itemText subs).flatMap (fun (c, st) => processKrSub pn itn c st)

/-- Item level of `_parse_paragraphs_korean`: raw matches are filtered
by the reference-particle and parenthesis exclusions before splitting. -/
def processKrPara (pn : Txt) (paraText : Txt) : List ParaRow :=
  let itemsRaw := scanIter matchKrItem none 0 paraText
  let items := itemsRaw.filter (fun x => krItemOK paraText x.1 x.2.1)
  match items with
  | [] => [⟨pn, [], [], [], paraText⟩]
  | _ =>
    (spansAfter paraText items).flatMap (fun (d, it) => processKrItem pn d it)

/-- Decimal numeral for a circled digit (`ord(c) - ord('①') + 1`). -/
def circledNum (c : Char) : Txt :=
  (Nat.repr (c.toNat - '①'.toNat + 1)).toList

/-- The paragraph spans `paragraphs_to_process` of
`_parse_paragraphs_korean`: one span per circled digit, or the whole
text labelled `""` when none occurs. -/
def krParaSpans (text : Txt) : List (Txt × Txt) :=
  let paras := scanIter matchCircled none 0 text
  match paras with
  | [] => [([], text)]
  | _ => (spansAfter text paras).map (fun (c, t) => (circledNum c, t))

/-- Source: `_parse_paragraphs_korean` (src/parsers/korea.py). -/
def parseParagraphsKorean (text : Txt) : List ParaRow :=
  (krParaSpans text).flatMap (fun (n, t) => processKrPara n t)

/-! ## Hierarchy markers and the orchestrator's joining rule
(`extract_structured_articles`, src/parsers/__init__.py, lines 267–284) -/

inductive HKind where
  | part
  | chapter
  | sect
deriving DecidableEq

/-- A hierarchy marker `{"type", "title", "start_pos"}`.  The position is
an `Int` because an article whose position lookup fails is joined at
position `-1`. -/
structure HMark where
  kind : HKind
  title : Txt
  pos : Int
deriving DecidableEq

/-- The orchestrator's joining loop: walk the marker list, stop at the
first marker past the article position (`break`), and keep the latest
part/chapter/section, where a part resets chapter and section and a
chapter resets section. -/
def joinWalk : List HMark → Int → (Txt × Txt × Txt) → (Txt × Txt × Txt)
  | [], _, acc => acc
  | h :: t, p, (pa, ch, se) =>
    if p < h.pos then (pa, ch, se)
    else
      match h.kind with
      | .part => joinWalk t p (h.title, [], [])
      | .chapter => joinWalk t p (pa, h.title, [])
      | .sect => joinWalk t p (pa, ch, h.title)

/-- The part/chapter/section labels the orchestrator attaches to an
article at position `p`. -/
def joinHierarchy (hs : List HMark) (p : Int) : Txt × Txt × Txt :=
  joinWalk hs p ([], [], [])

/-- The reset-rule step used by the spec's description of the joining
rule. -/
def resetStep (acc : Txt × Txt × Txt) (h : HMark) : Txt × Txt × Txt :=
  match h.kind, acc with
  | .part, _ => (h.title, [], [])
  | .chapter, (pa, _, _) => (pa, h.title, [])
  | .sect, (pa, ch, _) => (pa, ch, h.title)

/-- Modelled from the spec: "for an Article at position P, walk the
sorted marker list and keep the last Part/Chapter/Section seen with
position ≤ P, applying the reset rule (new Part clears current
Chapter/Section; new Chapter clears current Section)" — i.e. fold the
reset rule over exactly the markers at position ≤ P. -/
def specAttach (hs : List HMark) (p : Int) : Txt × Txt × Txt :=
  (hs.filter (fun h => h.pos ≤ p)).foldl resetStep ([], [], [])

/-! ## Taiwan/Chinese pipeline (src/parsers/taiwan.py and the
`extract_structured_articles` loop of src/parsers/__init__.py,
specialized to `lang = "chinese"`, `fmt = "standard"`,
`use_ai_titles = False`) -/

/-- The CJK numerals of the Chinese article pattern
(`[一二三四五六七八九十百千]`). -/
def isCjkNumArt (c : Char) : Bool :=
  "一二三四五六七八九十百千".toList.contains c

/-- The CJK numerals of the Chinese hierarchy patterns
(`[一二三四五六七八九十百]`, without `千`). -/
def isCjkNumHier (c : Char) : Bool :=
  "一二三四五六七八九十百".toList.contains c

/-- Core of `(第\s*(?:\d+|[一二三四五六七八九十百千]+)\s*條(?:\s*之\s*\d+)?)`,
returning (consumed length, group 1). -/
def zhHeaderCore (s : Txt) : Option (Nat × Txt) :=
  match s with
  | '第' :: s1 =>
    let ws := (s1.takeWhile isPySpace).length
    let s2 := s1.drop ws
    let numLen :=
      let ds := (s2.takeWhile isAsciiDigit).length
      if ds ≠ 0 then some ds
      else
        let cs := (s2.takeWhile isCjkNumArt).length
        if cs ≠ 0 then some cs else none
    match numLen with
    | none => none
    | some nl =>
      let s3 := s2.drop nl
      let ws2 := (s3.takeWhile isPySpace).length
      match s3.drop ws2 with
      | '條' :: s4 =>
        let base := 1 + ws + nl + ws2 + 1
        let ext :=
          let w3 := (s4.takeWhile isPySpace).length
          match s4.drop w3 with
          | '之' :: s5 =>
            let w4 := (s5.takeWhile isPySpace).length
            let ds2 := (s5.drop w4).takeWhile isAsciiDigit
            if ds2 = [] then 0 else w3 + 1 + w4 + ds2.length
          | _ => 0
        let total := base + ext
        some (total, s.take total)
      | _ => none
  | _ => none

/-- Source: `(?:^|\n)(第\s*(?:\d+|[一二三四五六七八九十百千]+)\s*條(?:\s*之\s*\d+)?)`. -/
def matchZhHeader : Option Char → Txt → Option (Nat × Txt) :=
  anchorNl zhHeaderCore

/-- Chunk construction of `_split_chinese`: every match becomes an
article (no dedup, no length filter); empty chunks are skipped. -/
def chunksZh (text : Txt) : List (Nat × Nat × Txt) → List RawArt
  | [] => []
  | (p, _, g) :: rest =>
    let e := match rest with
      | (p2, _, _) :: _ => p2
      | [] => text.length
    let start := adjStart text p
    let chunk := pyStrip (pySlice text start e)
    let tail := chunksZh text rest
    if chunk = [] then tail else ⟨pyStrip g, chunk, false⟩ :: tail

/-- Source: `_split_chinese` (src/parsers/taiwan.py). -/
def splitChinese (text : Txt) : List RawArt :=
  let ms := scanIter matchZhHeader none 0 text
  match ms with
  | [] => if pyStrip text = [] then [] else [⟨jeonmun, pyStrip text, false⟩]
  | (s0, _, _) :: _ =>
    let fs := adjStart text s0
    let pre := pyStrip (pySlice text 0 fs)
    let preL : List RawArt := if pre = [] then [] else [⟨jeonmun, pre, false⟩]
    preL ++ chunksZh text ms

/-- Core of the Chinese hierarchy patterns
`(第\s*[一二三四五六七八九十百]+\s*K[^\n]*)` for a kind character `K`
(`編`, `章` or `節`). -/
def zhHierCore (kindCh : Char) (s : Txt) : Option (Nat × Txt) :=
  match s with
  | '第' :: s1 =>
    let ws := (s1.takeWhile isPySpace).length
    let s2 := s1.drop ws
    let cs := (s2.takeWhile isCjkNumHier).length
    if cs = 0 then none
    else
      let s3 := s2.drop cs
      let ws2 := (s3.takeWhile isPySpace).length
      match s3.drop ws2 with
      | c :: s4 =>
        if c = kindCh then
          let line := (s4.takeWhile (fun ch => ch ≠ '\n')).length
          let total := 1 + ws + cs + ws2 + 1 + line
          some (total, s.take total)
        else none
      | [] => none
  | _ => none

/-- Last index of `c` in `l`, if any. -/
def lastIdxOf (c : Char) (l : Txt) : Option Nat :=
  match l with
  | [] => none
  | x :: t =>
    match lastIdxOf c t with
    | some n => some (n + 1)
    | none => if x = c then some 0 else none

/-- Source: `re.sub(r"\s*<[^>]+>\s*$", "", s)`: delete one trailing
`<...>` annotation (plus surrounding whitespace) at the end of a title. -/
def subTrailingTag (s : Txt) : Txt :=
  let rv := s.reverse.dropWhile isPySpace
  match rv with
  | '>' :: rest =>
    let seg := rv.tail.takeWhile (fun c => c ≠ '>')
    match lastIdxOf '<' seg with
    | some j =>
      if 1 ≤ j then ((rest.drop (j + 1)).dropWhile isPySpace).reverse else s
    | none => s
  | _ => s

/-- Source: `_detect_hierarchy_chinese` (src/parsers/taiwan.py): find part,
chapter and section headings, clean trailing history tags from titles,
and sort the markers by position (Python `list.sort` is stable). -/
def detectHierarchyZh (text : Txt) : List HMark :=
  let mk := fun (k : HKind) (kc : Char) =>
    (scanIter (anchorNl (zhHierCore kc)) none 0 text).map
      (fun (x : Nat × Nat × Txt) => ({ kind := k, title := pyStrip x.2.2, pos := (x.1 : Int) } : HMark))
  let hs := mk .part '編' ++ mk .chapter '章' ++ mk .sect '節'
  let hs := hs.map (fun h => { h with title := pyStrip (subTrailingTag h.title) })
  hs.mergeSort (fun a b => a.pos ≤ b.pos)

/-- Source: `_extract_article_title(text, "chinese")` (src/parsers/base.py):
`re.match` of the article header followed by a parenthesized title. -/
def zhTitle (t : Txt) : Txt :=
  match zhHeaderCore t with
  | none => []
  | some (n, _) =>
    let s1 := t.drop n
    let ws := (s1.takeWhile isPySpace).length
    match s1.drop ws with
    | '(' :: s2 =>
      let content := s2.takeWhile (fun c => c ≠ ')')
      if content = [] then []
      else
        match s2.drop content.length with
        | ')' :: _ => content
        | _ => []
    | _ => []

/-- Search for `re.escape(id)(?:\s|$)` — the English id-position
fallback of the orchestrator. -/
def searchIdWs (text aid : Txt) : Int :=
  if hasPre aid text && (match text.drop aid.length with
      | [] => true
      | c :: _ => isPySpace c) then 0
  else
    match text with
    | [] => -1
    | _ :: t =>
      match searchIdWs t aid with
      | -1 => -1
      | n => n + 1

/-- Search for `re.escape(id)(?:\(|<|\s|$)` — the Korean id-position
fallback of the orchestrator. -/
def searchIdKo (text aid : Txt) : Int :=
  if hasPre aid text && (match text.drop aid.length with
      | [] => true
      | c :: _ => c = '(' || c = '<' || isPySpace c) then 0
  else
    match text with
    | [] => -1
    | _ :: t =>
      match searchIdKo t aid with
      | -1 => -1
      | n => n + 1

/-- The orchestrator's article-position lookup, for the Taiwan path
(`fmt = "standard"`, so the US and Hong Kong fallbacks are skipped). -/
def zhArticlePos (text : Txt) (a : RawArt) : Int :=
  let p0 := pyFind text a.text
  let p1 :=
    if p0 = -1 then
      if containsSub a.id "Article".toList then searchIdWs text a.id
      else if containsSub a.id "제".toList && containsSub a.id "조".toList then
        searchIdKo text a.id
      else if containsSub a.id "第".toList && containsSub a.id "條".toList then
        pyFind text a.id
      else p0
    else p0
  if p1 = -1 ∧ 100 < a.text.length then pyFind text (a.text.take 100) else p1

/-- A flattened structured record — one output row of
`extract_structured_articles` with the ten columns
편/장/절/조문번호/조문제목/항/호/목/세목/원문. -/
structure SRow where
  part : Txt
  chapter : Txt
  sect : Txt
  aid : Txt
  atitle : Txt
  para : Txt
  item : Txt
  subitem : Txt
  subsubitem : Txt
  body : Txt
deriving DecidableEq

/-- Source: `_parse_paragraphs_and_items(text, lang, fmt)` for
`lang = "chinese"`, `fmt = "standard"` (src/parsers/__init__.py line
378–379), which is also `TaiwanParser.parse_paragraphs`
(src/parsers/taiwan.py lines 37–39): the Chinese decomposer always
returns no paragraph units. -/
def parseParagraphsAndItemsZh (_text : Txt) : List ParaRow := []

/-! ### The preamble paragraphizer (`_parse_preamble`, src/parsers/base.py) -/

/-- Core of the preamble-header alternation
`THE\s+CONTRACTING\s+MEMBER\s+STATES,?|THE\s+PARTIES,?` (IGNORECASE). -/
def preHeaderCore (s : Txt) : Option (Nat × Txt) :=
  let lit := fun (kw : Txt) (u : Txt) => matchKwCI kw u
  let wsp := fun (u : Txt) =>
    let n := (u.takeWhile isPySpace).length
    if n = 0 then none else some n
  let seq := fun (words : List Txt) =>
    let rec go (u : Txt) (acc : Nat) : List Txt → Option Nat
      | [] => some acc
      | w :: rest =>
        match lit w u with
        | none => none
        | some n =>
          match rest with
          | [] => some (acc + n)
          | _ =>
            match wsp (u.drop n) with
            | none => none
            | some m => go ((u.drop n).drop m) (acc + n + m) rest
    go s 0 words
  let branch := fun (words : List Txt) =>
    match seq words with
    | none => none
    | some n =>
      let n2 := match s.drop n with
        | ',' :: _ => n + 1
        | _ => n
      some (n2, s.take n2)
  match branch ["the".toList, "contracting".toList, "member".toList, "states".toList] with
  | some r => some r
  | none => branch ["the".toList, "parties".toList]

/-- Source: `^(THE\s+CONTRACTING\s+MEMBER\s+STATES,?|THE\s+PARTIES,?)` with
`re.IGNORECASE | re.MULTILINE`: anchored at line starts. -/
def matchPreHeader (prev : Option Char) (s : Txt) : Option (Nat × Txt) :=
  let lineStart := match prev with
    | none => true
    | some c => c = '\n'
  if lineStart then preHeaderCore s else none

/-- The preamble keyword alternation (9 keywords, IGNORECASE), with a
leading `\b` and a trailing `\s+`; the payload is the keyword as it
appears in the text. -/
def preKw (prev : Option Char) (s : Txt) : Option (Nat × Txt) :=
  let okLeft := match prev with
    | none => true
    | some c => !isWordChar c
  if !okLeft then none
  else
    match matchAltCI
        ["considering".toList, "recalling".toList, "wishing".toList,
         "having".toList, "noting".toList, "desiring".toList,
         "recognizing".toList, "convinced".toList, "aware".toList] s with
    | none => none
    | some kwLen =>
      let ws := ((s.drop kwLen).takeWhile isPySpace).length
      if ws = 0 then none else some (kwLen + ws, s.take kwLen)

/-- Source: `HAVE\s+AGREED\s+AS\s+FOLLOWS` followed by `:` (case-sensitive
variant) or `:?` (case-insensitive variant); `ci` selects the variant
and `optColon` whether the colon is optional.  Payload is the matched
text. -/
def haveAgreedCore (ci : Bool) (optColon : Bool) (s : Txt) : Option (Nat × Txt) :=
  let lit := fun (kw : Txt) (u : Txt) =>
    if ci then matchKwCI (lowerTxt kw) u
    else if hasPre kw u then some kw.length else none
  let step := fun (u : Txt) (kw : Txt) =>
    match lit kw u with
    | none => none
    | some n =>
      let m := ((u.drop n).takeWhile isPySpace).length
      if m = 0 then none else some (n + m)
  match step s "HAVE".toList with
  | none => none
  | some n1 =>
    match step (s.drop n1) "AGREED".toList with
    | none => none
    | some n2 =>
      match step (s.drop (n1 + n2)) "AS".toList with
      | none => none
      | some n3 =>
        match lit "FOLLOWS".toList (s.drop (n1 + n2 + n3)) with
        | none => none
        | some n4 =>
          let base := n1 + n2 + n3 + n4
          match s.drop base with
          | ':' :: _ => some (base + 1, s.take (base + 1))
          | _ => if optColon then some (base, s.take base) else none

/-- Source: `\bHAVE\s+AGREED\s+AS\s+FOLLOWS` with a word-boundary on the left. -/
def matchHaveAgreed (ci optColon : Bool) (prev : Option Char) (s : Txt) : Option (Nat × Txt) :=
  let okLeft := match prev with
    | none => true
    | some c => !isWordChar c
  if okLeft then haveAgreedCore ci optColon s else none

/-- Source: `re.sub(r'[;:]\s*$', '', t)` on an already-stripped text: drop a
single trailing `;` or `:`. -/
def dropTrailPunct (t : Txt) : Txt :=
  match t.reverse with
  | ';' :: r => r.reverse
  | ':' :: r => r.reverse
  | _ => t

/-- The keyword paragraphs of `_parse_preamble`: each keyword match
spans to the next keyword, or (for the last) to a case-sensitive
`HAVE AGREED AS FOLLOWS:` if one occurs after it. -/
def preKwParas (pt : Txt) : List (Nat × Nat × Txt) → List (Txt × Txt)
  | [] => []
  | (p, _, kw) :: rest =>
    let e := match rest with
      | (p2, _, _) :: _ => p2
      | [] =>
        match scanIter (matchHaveAgreed false false) none 0 (pt.drop p) with
        | (q, _, _) :: _ => p + q
        | [] => pt.length
    let paraText := dropTrailPunct (pyStrip (pySlice pt p e))
    let tail := preKwParas pt rest
    if paraText = [] then tail else (upperTxt kw, paraText) :: tail

/-- Source: `_parse_preamble` (src/parsers/base.py): header line, keyword
paragraphs, and the closing "HAVE AGREED AS FOLLOWS" line, as
(label, text) pairs. -/
def parsePreamble (pt : Txt) : List (Txt × Txt) :=
  if pt = [] ∨ (pyStrip pt).length < 20 then []
  else
    let header : List (Txt × Txt) :=
      match scanIter matchPreHeader none 0 pt with
      | (_, _, g) :: _ => [("서두".toList, pyStrip g)]
      | [] => []
    let kws := scanIter preKw none 0 pt
    let paras := preKwParas pt kws
    let agreed : List (Txt × Txt) :=
      match scanIter (matchHaveAgreed true true) none 0 pt with
      | (_, _, g) :: _ => [("합의".toList, pyStrip g)]
      | [] => []
    header ++ paras ++ agreed

/-! ### The orchestrator loop for the Taiwan path -/

/-- The rows `extract_structured_articles` emits for one article on the
Taiwan path: the preamble unit is expanded by `parsePreamble`
(one fallback row if it yields nothing); a regular article is joined to
its hierarchy, titled, and — since the Chinese decomposer returns no
units — emitted as a single row with empty 항/호/목/세목 and the whole
body as 원문. -/
def rowForZhArticle (text : Txt) (hs : List HMark) (a : RawArt) : List SRow :=
  if a.id = jeonmun then
    match parsePreamble a.text with
    | [] => [⟨[], [], [], jeonmun, [], [], [], [], [], a.text⟩]
    | pp => pp.map (fun (label, t) => ⟨[], [], [], jeonmun, label, [], [], [], [], t⟩)
  else
    let pos := zhArticlePos text a
    let pcs := joinHierarchy hs pos
    let title := zhTitle a.text
    match parseParagraphsAndItemsZh a.text with
    | [] => [⟨pcs.1, pcs.2.1, pcs.2.2, a.id, title, [], [], [], [], a.text⟩]
    | rows => rows.map (fun r =>
        ⟨pcs.1, pcs.2.1, pcs.2.2, a.id, title, r.paragraph, r.item, r.subitem, r.subsubitem, r.text⟩)

/-- Source: `extract_structured_articles` specialized to the Taiwan path
(`lang = "chinese"`, `fmt = "standard"`, no AI titles), from extracted
text to the ordered record stream. -/
def extractRowsZh (text : Txt) : List SRow :=
  let hs := detectHierarchyZh text
  let arts := splitChinese text
  arts.flatMap (rowForZhArticle text hs)

/-! ## Duplicate-id resolution keeps the first longest body (C2) -/

/-- The dedup dict update viewed on a single key: keep the stored entry
unless the new body is strictly longer
(`len(a["text"]) > len(seen[aid]["text"])`). -/
def mergeEntry (acc : Option RawArt) (a : RawArt) : Option RawArt :=
  match acc with
  | none => some a
  | some b => if b.text.length < a.text.length then some a else some b

/-- Fold of `mergeEntry` over the candidates of one id, in document
order. -/
def keepMaxL (acc : Option RawArt) : List RawArt → Option RawArt
  | [] => acc
  | a :: t => keepMaxL (mergeEntry acc a) t

/-- Modelled from the spec: "given two candidate bodies for the same id,
the surviving Article's body always equals the longer of the two (ties
keep the earliest)"; composed over a candidate list this keeps the
earliest candidate whose body is at least as long as every later one. -/
def specSurvivor : List RawArt → Option RawArt
  | [] => none
  | a :: t =>
    match specSurvivor t with
    | none => some a
    | some b => if a.text.length < b.text.length then some b else some a

theorem lookupId_dedupIns (acc : List RawArt) (a : RawArt) (aid : Txt) :
    lookupId (dedupIns acc a) aid =
      if a.id = aid then mergeEntry (lookupId acc aid) a else lookupId acc aid := by
  induction acc with
  | nil =>
    by_cases h : a.id = aid <;> simp [dedupIns, lookupId, h, mergeEntry]
  | cons b bs ih =>
    by_cases hba : b.id = a.id
    · by_cases ha : a.id = aid
      · have hb : b.id = aid := by rw [hba, ha]
        by_cases hlen : b.text.length < a.text.length <;>
          simp [dedupIns, hba, hlen, lookupId, ha, hb, mergeEntry]
      · have hb : ¬ b.id = aid := fun h => ha (hba ▸ h)
        by_cases hlen : b.text.length < a.text.length <;>
          simp [dedupIns, hba, hlen, lookupId, ha, hb]
    · by_cases hb : b.id = aid
      · have ha : ¬ a.id = aid := fun h => hba (by rw [hb, h])
        have ha2 : ¬ aid = a.id := fun h => ha h.symm
        simp [dedupIns, hba, lookupId, hb, ha, ha2]
      · simp [dedupIns, hba, lookupId, hb, ih]

theorem lookupId_foldl_dedupIns (l : List RawArt) (acc : List RawArt) (aid : Txt) :
    lookupId (l.foldl dedupIns acc) aid =
      keepMaxL (lookupId acc aid) (l.filter (fun a => a.id = aid)) := by
  induction l generalizing acc with
  | nil => simp [keepMaxL]
  | cons a t ih =>
    rw [List.foldl_cons, ih, lookupId_dedupIns, List.filter_cons]
    by_cases ha : a.id = aid
    · simp [ha, keepMaxL]
    · simp [ha]

theorem keepMaxL_some_eq_spec (b : RawArt) (l : List RawArt) :
    keepMaxL (some b) l =
      match specSurvivor l with
      | none => some b
      | some c => if b.text.length < c.text.length then some c else some b := by
  induction l generalizing b with
  | nil => simp [keepMaxL, specSurvivor]
  | cons a t ih =>
    show keepMaxL (mergeEntry (some b) a) t = _
    rcases hs : specSurvivor t with _ | c
    · by_cases hba : b.text.length < a.text.length <;>
        simp [mergeEntry, hba, ih, hs, specSurvivor]
    · by_cases hba : b.text.length < a.text.length <;>
        by_cases hac : a.text.length < c.text.length <;>
        by_cases hbc : b.text.length < c.text.length <;>
        simp [mergeEntry, hba, ih, hs, specSurvivor, hac, hbc] <;> omega

theorem keepMaxL_none_eq_spec (l : List RawArt) :
    keepMaxL none l = specSurvivor l := by
  cases l with
  | nil => rfl
  | cons a t =>
    show keepMaxL (mergeEntry none a) t = _
    rcases hs : specSurvivor t with _ | c <;>
      simp [mergeEntry, keepMaxL_some_eq_spec, hs, specSurvivor]

/-- C2: Deduplication keeps the longest body, ties broken by first
occurrence: for any candidate list and any id, the entry stored by the
`seen` dict of `_split_english` / `_split_us_english` for that id is
exactly the first candidate with that id whose body is at least as long
as every later candidate's with the same id. -/
theorem dedup_keeps_longest (l : List RawArt) (aid : Txt) :
    lookupId (dedupL l) aid = specSurvivor (l.filter (fun a => a.id = aid)) := by
  rw [dedupL, lookupId_foldl_dedupIns, show lookupId [] aid = none from rfl,
    keepMaxL_none_eq_spec]

/-! ## The orchestrator's hierarchy join realizes the spec's
filter-and-walk rule (C6) -/

theorem joinWalk_sorted (hs : List HMark) (p : Int) (acc : Txt × Txt × Txt)
    (hsort : hs.Pairwise (fun a b => a.pos ≤ b.pos)) :
    joinWalk hs p acc = (hs.filter (fun h => h.pos ≤ p)).foldl resetStep acc := by
  induction hs generalizing acc with
  | nil => simp [joinWalk]
  | cons h t ih =>
    obtain ⟨hle, hsort'⟩ := List.pairwise_cons.mp hsort
    rcases acc with ⟨pa, ch, se⟩
    by_cases hp : p < h.pos
    · have hfilter : (h :: t).filter (fun x => decide (x.pos ≤ p)) = [] := by
        rw [List.filter_eq_nil_iff]
        intro x hx
        simp only [decide_eq_true_eq, not_le]
        rcases List.mem_cons.mp hx with rfl | hx2
        · omega
        · have := hle x hx2
          omega
      rw [hfilter]
      simp [joinWalk, hp]
    · have hxp : h.pos ≤ p := not_lt.mp hp
      rw [List.filter_cons, if_pos (by simpa using hxp), List.foldl_cons]
      cases hk : h.kind <;>
        simp [joinWalk, hp, hk, resetStep, ih _ hsort']

/-- C6: For an article at position `P`, the orchestrator's
break-based walk attaches exactly what the spec's joining rule
prescribes: the fold of the reset rule (new Part clears
Chapter/Section, new Chapter clears Section) over precisely the markers
of the position-sorted list whose position is `≤ P`. -/
theorem join_attaches_nearest (hs : List HMark) (p : Int)
    (hsort : hs.Pairwise (fun a b => a.pos ≤ b.pos)) :
    joinHierarchy hs p = specAttach hs p :=
  joinWalk_sorted hs p ([], [], []) hsort

/-- Witness for C6 at a concrete marker list and position: a Part at 0,
a Chapter at 10, a Section at 20, a later Part at 30, joined at
position 25. -/
theorem join_attaches_nearest_witness :
    ([⟨.part, "P1".toList, 0⟩, ⟨.chapter, "C1".toList, 10⟩,
      ⟨.sect, "S1".toList, 20⟩, ⟨.part, "P2".toList, 30⟩] :
        List HMark).Pairwise (fun a b => a.pos ≤ b.pos) ∧
    joinHierarchy
        [⟨.part, "P1".toList, 0⟩, ⟨.chapter, "C1".toList, 10⟩,
         ⟨.sect, "S1".toList, 20⟩, ⟨.part, "P2".toList, 30⟩] 25 =
      specAttach
        [⟨.part, "P1".toList, 0⟩, ⟨.chapter, "C1".toList, 10⟩,
         ⟨.sect, "S1".toList, 20⟩, ⟨.part, "P2".toList, 30⟩] 25 :=
  ⟨by decide, join_attaches_nearest _ _ (by decide)⟩

/-! ## Structural lemmas about the English splitter's stages -/

theorem lookupId_mem {l : List RawArt} {aid : Txt} {e : RawArt}
    (h : lookupId l aid = some e) : e ∈ l ∧ e.id = aid := by
  induction l with
  | nil => simp [lookupId] at h
  | cons b bs ih =>
    rw [lookupId] at h
    by_cases hb : b.id = aid
    · rw [if_pos hb] at h
      cases h
      exact ⟨List.mem_cons_self _ _, hb⟩
    · rw [if_neg hb] at h
      obtain ⟨h1, h2⟩ := ih h
      exact ⟨List.mem_cons_of_mem _ h1, h2⟩

theorem dedupIns_mem_id {acc : List RawArt} {a b : RawArt}
    (h : b ∈ dedupIns acc a) : b.id = a.id ∨ b.id ∈ acc.map (fun x => x.id) := by
  induction acc with
  | nil =>
    simp [dedupIns] at h
    subst h
    exact Or.inl rfl
  | cons x xs ih =>
    rw [dedupIns] at h
    by_cases hx : x.id = a.id
    · rw [if_pos hx] at h
      rcases List.mem_cons.mp h with hb | h2
      · subst hb
        split
        · exact Or.inl rfl
        · exact Or.inl hx
      · right
        exact List.mem_map.mpr ⟨b, List.mem_cons_of_mem _ h2, rfl⟩
    · rw [if_neg hx] at h
      rcases List.mem_cons.mp h with hb | h2
      · subst hb
        right
        exact List.mem_map_of_mem _ (List.mem_cons_self _ _)
      · rcases ih h2 with h3 | h3
        · exact Or.inl h3
        · right
          rcases List.mem_map.mp h3 with ⟨y, hy, hyid⟩
          exact List.mem_map.mpr ⟨y, List.mem_cons_of_mem _ hy, hyid⟩

theorem foldl_dedupIns_mem_id :
    ∀ (l acc : List RawArt) (b : RawArt), b ∈ l.foldl dedupIns acc →
      b.id ∈ acc.map (fun x => x.id) ∨ b.id ∈ l.map (fun x => x.id) := by
  intro l
  induction l with
  | nil =>
    intro acc b h
    exact Or.inl (List.mem_map_of_mem _ h)
  | cons a t ih =>
    intro acc b h
    rw [List.foldl_cons] at h
    rcases ih (dedupIns acc a) b h with h1 | h1
    · rcases List.mem_map.mp h1 with ⟨y, hy, hyid⟩
      rcases dedupIns_mem_id hy with h2 | h2
      · right
        rw [← hyid, h2]
        exact List.mem_map_of_mem _ (List.mem_cons_self _ _)
      · left
        rw [← hyid]
        exact h2
    · right
      rcases List.mem_map.mp h1 with ⟨y, hy, hyid⟩
      exact List.mem_map.mpr ⟨y, List.mem_cons_of_mem _ hy, hyid⟩

theorem dedupL_mem_id {l : List RawArt} {b : RawArt} (h : b ∈ dedupL l) :
    b.id ∈ l.map (fun x => x.id) := by
  rcases foldl_dedupIns_mem_id l [] b h with h1 | h1
  · simp at h1
  · exact h1

/-- The hierarchy-line cleaning and deletion marking do not change
article ids. -/
theorem enRawProcessed_ids (text : Txt) :
    (enRawProcessed text).map (fun a => a.id) =
      (rawEnAux text (enCandidates text)).map (fun a => a.id) := by
  unfold enRawProcessed markDeleted cleanRaw
  rw [List.map_map, List.map_map]
  apply List.map_congr_left
  intro a _
  simp only [Function.comp_apply]
  split <;> rfl

/-- Every id the first pass keeps has a numeral of at most 4 digits. -/
theorem rawEnAux_digit_le (text : Txt) :
    ∀ (cands : List (Nat × Nat × Txt)), ∀ a ∈ rawEnAux text cands,
      firstDigitRunLen a.id ≤ 4 := by
  intro cands
  induction cands with
  | nil =>
    intro a ha
    simp [rawEnAux] at ha
  | cons c rest ih =>
    intro a ha
    rcases c with ⟨s0, n, g1⟩
    rw [rawEnAux.eq_def] at ha
    simp only at ha
    split at ha
    · exact ih a ha
    · split at ha
      · exact ih a ha
      · rcases List.mem_cons.mp ha with rfl | h2
        · rename_i hfilter
          simp only [not_lt] at hfilter
          exact hfilter
        · exact ih a h2

/-- Every unit the English segmenter outputs is either the synthetic
preamble or comes from a filtered dedup survivor, with the survivor's id
or its deleted-variant id. -/
theorem splitEnglish_mem_id (text : Txt) (a : RawArt) (ha : a ∈ splitEnglish text) :
    a.id = jeonmun ∨
      ∃ e ∈ lenFilter (dedupL (enRawProcessed text)),
        a.id = e.id ∨ a.id = e.id ++ delSuffix := by
  unfold splitEnglish at ha
  rcases hc : enCandidates text with _ | ⟨⟨s0, n, g1⟩, rest⟩ <;> rw [hc] at ha
  · split at ha
    · simp at ha
    · rcases List.mem_singleton.mp ha with rfl
      exact Or.inl rfl
  · simp only at ha
    rcases List.mem_append.mp ha with h1 | h1
    · split at h1
      · simp at h1
      · rcases List.mem_singleton.mp h1 with rfl
        exact Or.inl rfl
    · rcases List.mem_filterMap.mp h1 with ⟨aid, _, hmap⟩
      rcases hlook : lookupId (lenFilter (dedupL (enRawProcessed text))) aid with _ | e <;>
        rw [hlook] at hmap
      · simp at hmap
      · right
        refine ⟨e, (lookupId_mem hlook).1, ?_⟩
        rw [Option.map_some'] at hmap
        injection hmap with h2
        subst h2
        split
        · exact Or.inr rfl
        · exact Or.inl rfl

theorem takeWhile_append_nodigit {sfx : Txt} (t : Txt)
    (hs : ∀ c ∈ sfx, isAsciiDigit c = false) :
    (t ++ sfx).takeWhile isAsciiDigit = t.takeWhile isAsciiDigit := by
  induction t with
  | nil =>
    cases hsfx : sfx with
    | nil => simp
    | cons c u =>
      have := hs c (by rw [hsfx]; exact List.mem_cons_self _ _)
      simp [List.takeWhile, this]
  | cons x t' ih =>
    by_cases hx : isAsciiDigit x = true <;>
      simp [List.takeWhile_cons, hx, ih]

/-- Appending digit-free text does not change the first numeral run. -/
theorem firstDigitRunLen_append_nodigit {l sfx : Txt}
    (hs : ∀ c ∈ sfx, isAsciiDigit c = false) :
    firstDigitRunLen (l ++ sfx) = firstDigitRunLen l := by
  induction l with
  | nil =>
    unfold firstDigitRunLen
    have hdrop : sfx.dropWhile (fun c => !isAsciiDigit c) = [] := by
      rw [List.dropWhile_eq_nil_iff]
      intro x hx
      simp [hs x hx]
    simp [hdrop]
  | cons c t ih =>
    by_cases hcd : isAsciiDigit c = true
    · unfold firstDigitRunLen
      have h1 : (fun x => !isAsciiDigit x) c = false := by simp [hcd]
      rw [List.cons_append, List.dropWhile_cons_of_neg (by simp [hcd]),
        List.dropWhile_cons_of_neg (by simp [hcd])]
      rw [List.takeWhile_cons_of_pos hcd, List.takeWhile_cons_of_pos hcd]
      simp only [List.length_cons]
      rw [takeWhile_append_nodigit t hs]
    · unfold firstDigitRunLen at ih ⊢
      rw [List.cons_append, List.dropWhile_cons_of_pos (by simp [hcd]),
        List.dropWhile_cons_of_pos (by simp [hcd])]
      exact ih

/-! ## C4: no boundary match -/

/-- C4 (amended): When the English article-boundary pattern has no
match, the segmenter never errs (the embedding is a total function): it
returns the stripped input as a single synthetic preamble unit when
that is nonempty, and the empty list when the input is all
whitespace. -/
theorem no_match_preamble (text : Txt) (hEpc : hasEpcMark text = false)
    (h : enCandidates text = []) :
    splitEnglish text =
      if pyStrip text = [] then [] else [⟨jeonmun, pyStrip text, false⟩] := by
  unfold splitEnglish
  rw [h]

/-- C4 counterexample: On the all-whitespace input `" "` the pattern
has no match, yet the segmenter returns no unit at all rather than a
single preamble unit holding the entire input. -/
theorem no_match_preamble_counterexample :
    enCandidates " ".toList = [] ∧ splitEnglish " ".toList = [] ∧
      (splitEnglish " ".toList).length ≠ 1 := by
  refine ⟨by decide, by decide, ?_⟩
  decide

/-- Witness for C4 (amended) at the concrete no-match input `"hello"`. -/
theorem no_match_preamble_witness :
    hasEpcMark "hello".toList = false ∧ enCandidates "hello".toList = [] ∧
      splitEnglish "hello".toList = [⟨jeonmun, "hello".toList, false⟩] := by
  refine ⟨by decide, by decide, ?_⟩
  rw [no_match_preamble "hello".toList (by decide) (by decide)]
  decide

/-! ## C5: implausibly long numerals are silently dropped -/

theorem delSuffix_nodigit : ∀ c ∈ delSuffix, isAsciiDigit c = false := by decide

/-- C5: A line-anchored article-boundary candidate whose id embeds a
numeral of 6 or more digits is silently dropped by the English
segmenter: no output unit carries that id (nor its deleted-variant id),
and no error is raised — the segmenter is a total function. -/
theorem implausible_numeral_dropped (text : Txt) (hEpc : hasEpcMark text = false)
    (c : Nat × Nat × Txt) (hc : c ∈ enCandidates text)
    (hlong : 6 ≤ firstDigitRunLen (pyStrip c.2.2)) :
    ∀ a ∈ splitEnglish text,
      a.id ≠ pyStrip c.2.2 ∧ a.id ≠ pyStrip c.2.2 ++ delSuffix := by
  intro a ha
  have hids : ∀ e ∈ lenFilter (dedupL (enRawProcessed text)),
      firstDigitRunLen e.id ≤ 4 := by
    intro e he
    have he2 : e ∈ dedupL (enRawProcessed text) := (List.mem_filter.mp he).1
    have he3 := dedupL_mem_id he2
    rw [enRawProcessed_ids] at he3
    rcases List.mem_map.mp he3 with ⟨y, hy, hyid⟩
    rw [← hyid]
    exact rawEnAux_digit_le text _ y hy
  have hrtid2 : firstDigitRunLen (pyStrip c.2.2 ++ delSuffix) =
      firstDigitRunLen (pyStrip c.2.2) :=
    firstDigitRunLen_append_nodigit delSuffix_nodigit
  have hatop : firstDigitRunLen a.id ≤ 4 := by
    rcases splitEnglish_mem_id text a ha with hj | ⟨e, he, hid⟩
    · rw [hj]
      decide
    · have h4 := hids e he
      rcases hid with h | h
      · rw [h]
        exact h4
      · rw [h, firstDigitRunLen_append_nodigit delSuffix_nodigit]
        exact h4
  constructor
  · intro hEq
    rw [hEq] at hatop
    omega
  · intro hEq
    rw [hEq, hrtid2] at hatop
    omega

/-- Witness for C5: in
`"Article 123456 junk\nArticle 2 (deleted)"` the first candidate has a
6-digit numeral; the output holds only the second (deleted) article and
no unit carries the dropped id. -/
theorem implausible_numeral_dropped_witness :
    hasEpcMark "Article 123456 junk\nArticle 2 (deleted)".toList = false ∧
    ((0 : Nat), (14 : Nat), "Article 123456".toList) ∈
      enCandidates "Article 123456 junk\nArticle 2 (deleted)".toList ∧
    6 ≤ firstDigitRunLen (pyStrip "Article 123456".toList) ∧
    (⟨"Article 2 (삭제)".toList, "(삭제)".toList, true⟩ : RawArt) ∈
      splitEnglish "Article 123456 junk\nArticle 2 (deleted)".toList ∧
    "Article 2 (삭제)".toList ≠ pyStrip "Article 123456".toList ∧
    "Article 2 (삭제)".toList ≠ pyStrip "Article 123456".toList ++ delSuffix := by
  refine ⟨by decide, by decide, by decide, by decide, ?_, ?_⟩
  · exact (implausible_numeral_dropped "Article 123456 junk\nArticle 2 (deleted)".toList
      (by decide) (0, 14, "Article 123456".toList) (by decide) (by decide)
      ⟨"Article 2 (삭제)".toList, "(삭제)".toList, true⟩ (by decide)).1
  · exact (implausible_numeral_dropped "Article 123456 junk\nArticle 2 (deleted)".toList
      (by decide) (0, 14, "Article 123456".toList) (by decide) (by decide)
      ⟨"Article 2 (삭제)".toList, "(삭제)".toList, true⟩ (by decide)).2

/-! ## C7: definition-heavy paragraphs -/

/-- C7 counterexample: The Korean decomposer implements no
definition-cue exception: this Korean paragraph span contains three
occurrences of the Korean definition cue `말한다` ("means"), yet
`_parse_paragraphs_korean` splits it into three item units instead of
emitting it as a single ParagraphUnit. -/
theorem defn_cue_counterexample :
    countSub "말한다".toList
        "①거짓\n1. 특허권이란 갑을 말한다.\n2. 실용신안권이란 을을 말한다.\n3. 디자인권이란 병을 말한다.".toList = 3 ∧
    (parseParagraphsKorean
        "①거짓\n1. 특허권이란 갑을 말한다.\n2. 실용신안권이란 을을 말한다.\n3. 디자인권이란 병을 말한다.".toList).length = 3 ∧
    (parseParagraphsKorean
        "①거짓\n1. 특허권이란 갑을 말한다.\n2. 실용신안권이란 을을 말한다.\n3. 디자인권이란 병을 말한다.".toList).map
        (fun r => r.item) = ["1".toList, "2".toList, "3".toList] := by
  refine ⟨by decide, by decide, by decide⟩

/-- C7 (amended): For the English grammar, a paragraph span whose
text contains three or more `\bmeans\b` occurrences is emitted by the
decomposer as a single ParagraphUnit carrying the whole span, with
empty item, subitem and sub-subitem labels. -/
theorem defn_heavy_kept_whole (pn t : Txt) (h : 3 ≤ meansCount t) :
    processSpanEn pn t = [⟨pn, [], [], [], t⟩] := by
  have hd : isDefnPara t = true := by
    simp [isDefnPara, h]
  simp [processSpanEn, hd]

/-- Witness for C7 (amended) on a definition list with three
"means" cues. -/
theorem defn_heavy_kept_whole_witness :
    3 ≤ meansCount "a means b. c means d. e means f.".toList ∧
    processSpanEn "1".toList "a means b. c means d. e means f.".toList =
      [⟨"1".toList, [], [], [], "a means b. c means d. e means f.".toList⟩] :=
  ⟨by decide, defn_heavy_kept_whole "1".toList "a means b. c means d. e means f.".toList (by decide)⟩

/-! ## C8: decomposition and the article body -/

theorem pySlice_isSub (s : Txt) (a b : Nat) : pySlice s a b <:+: s :=
  (List.take_prefix _ _).isInfix.trans (List.drop_suffix _ _).isInfix

theorem pyStrip_isSub (s : Txt) : pyStrip s <:+: s := by
  have h1 : s.dropWhile isPySpace <:+ s := List.dropWhile_suffix _
  have h2 : (s.dropWhile isPySpace).reverse.dropWhile isPySpace <:+
      (s.dropWhile isPySpace).reverse := List.dropWhile_suffix _
  have h3 : ((s.dropWhile isPySpace).reverse.dropWhile isPySpace).reverse <+:
      (s.dropWhile isPySpace).reverse.reverse := List.reverse_prefix.mpr h2
  rw [List.reverse_reverse] at h3
  exact h3.isInfix.trans h1.isInfix

theorem spansAfter_mem_isSub {α : Type} (text : Txt) (ms : List (Nat × Nat × α)) :
    ∀ x ∈ spansAfter text ms, x.2 <:+: text := by
  induction ms with
  | nil =>
    intro x hx
    simp [spansAfter] at hx
  | cons m rest ih =>
    rcases m with ⟨p, n, a⟩
    intro x hx
    rcases List.mem_cons.mp hx with rfl | h2
    · exact (pyStrip_isSub _).trans (pySlice_isSub _ _ _)
    · exact ih x h2

theorem processItemEn_text_isSub (pn il it : Txt) :
    ∀ r ∈ processItemEn pn il it, r.text <:+: it := by
  intro r hr
  unfold processItemEn at hr
  rcases hsubs : scanIter matchRomanParen none 0 it with _ | ⟨m, rest⟩ <;>
    simp only [hsubs] at hr
  · rcases List.mem_singleton.mp hr with rfl
    exact List.infix_refl _
  · rcases List.mem_map.mp hr with ⟨⟨v, st⟩, hmem, rfl⟩
    exact spansAfter_mem_isSub it _ _ hmem

theorem processSpanEn_text_isSub (pn pt : Txt) :
    ∀ r ∈ processSpanEn pn pt, r.text <:+: pt := by
  intro r hr
  unfold processSpanEn at hr
  split at hr
  · rcases List.mem_singleton.mp hr with rfl
    exact List.infix_refl _
  · rcases hitems : scanIter matchItemEn none 0 pt with _ | ⟨⟨p, q⟩, rest⟩ <;>
      simp only [hitems] at hr
    · rcases List.mem_singleton.mp hr with rfl
      exact List.infix_refl _
    · rcases List.mem_append.mp hr with h1 | h1
      · split at h1
        · simp at h1
        · rcases List.mem_singleton.mp h1 with rfl
          exact (pyStrip_isSub _).trans (List.take_prefix _ _).isInfix
      · rcases List.mem_flatMap.mp h1 with ⟨⟨l, it⟩, hmem, hrow⟩
        exact (processItemEn_text_isSub pn l it r hrow).trans
          (spansAfter_mem_isSub pt _ _ hmem)

/-- C8 (amended): The English decomposer never invents text: every
ParagraphUnit's text is a contiguous substring of the Article body.
(Full concatenation does not reproduce the body — see the
counterexample — because marker tokens and the lead before the first
paragraph marker are omitted.) -/
theorem decomposition_units_substring (text : Txt) :
    ∀ r ∈ parseParagraphsEn text, r.text <:+: text := by
  intro r hr
  unfold parseParagraphsEn at hr
  rcases hparas : scanIter matchParenNum none 0 text with _ | ⟨m, rest⟩ <;>
    simp only [hparas] at hr
  · simp at hr
  · rcases List.mem_flatMap.mp hr with ⟨⟨n, pt⟩, hmem, hrow⟩
    exact (processSpanEn_text_isSub n pt r hrow).trans
      (spansAfter_mem_isSub text _ _ hmem)

/-- Characters that survive whitespace removal — the "up to whitespace
differences" comparison of the claim. -/
def noWs (s : Txt) : Txt := s.filter (fun c => !isPySpace c)

/-- C8 counterexample: For the body `"Intro\n(1) Aaa\n(2) Bbb"` the
decomposer emits exactly the texts `"Aaa"` and `"Bbb"`: their
concatenation differs from the body by more than whitespace (the lead
text `"Intro"` and the markers `"(1)"`, `"(2)"` are gone). -/
theorem decomposition_counterexample :
    (parseParagraphsEn "Intro\n(1) Aaa\n(2) Bbb".toList).map (fun r => r.text) =
      ["Aaa".toList, "Bbb".toList] ∧
    noWs (((parseParagraphsEn "Intro\n(1) Aaa\n(2) Bbb".toList).map
        (fun r => r.text)).flatten) ≠
      noWs "Intro\n(1) Aaa\n(2) Bbb".toList := by
  refine ⟨by decide, by decide⟩

/-- Witness for C8 (amended) at the same concrete body. -/
theorem decomposition_units_substring_witness :
    (⟨"1".toList, [], [], [], "Aaa".toList⟩ : ParaRow) ∈
      parseParagraphsEn "Intro\n(1) Aaa\n(2) Bbb".toList ∧
    "Aaa".toList <:+: "Intro\n(1) Aaa\n(2) Bbb".toList :=
  ⟨by decide,
    decomposition_units_substring "Intro\n(1) Aaa\n(2) Bbb".toList
      ⟨"1".toList, [], [], [], "Aaa".toList⟩ (by decide)⟩

/-! ## C3: deleted articles bypass the length filter -/

theorem dedupIns_ids (acc : List RawArt) (a : RawArt) :
    (dedupIns acc a).map (fun x => x.id) =
      if a.id ∈ acc.map (fun x => x.id) then acc.map (fun x => x.id)
      else acc.map (fun x => x.id) ++ [a.id] := by
  induction acc with
  | nil => simp [dedupIns]
  | cons x xs ih =>
    by_cases hx : x.id = a.id
    · rw [dedupIns, if_pos hx]
      have hmem : a.id ∈ (x :: xs).map (fun y => y.id) := by
        rw [← hx]
        exact List.mem_map_of_mem _ (List.mem_cons_self _ _)
      rw [if_pos hmem]
      split <;> simp [hx]
    · rw [dedupIns, if_neg hx]
      by_cases hmem : a.id ∈ xs.map (fun y => y.id)
      · have hmem2 : a.id ∈ (x :: xs).map (fun y => y.id) := by
          simp only [List.map_cons, List.mem_cons]
          exact Or.inr hmem
        rw [if_pos hmem2]
        simp only [List.map_cons, ih, if_pos hmem]
      · have hmem2 : a.id ∉ (x :: xs).map (fun y => y.id) := by
          simp only [List.map_cons, List.mem_cons]
          rintro (h | h)
          · exact hx h.symm
          · exact hmem h
        rw [if_neg hmem2, List.map_cons, ih, if_neg hmem, List.map_cons,
          List.cons_append]

theorem dedupIns_ids_nodup {acc : List RawArt} (a : RawArt)
    (hnd : (acc.map (fun x => x.id)).Nodup) :
    ((dedupIns acc a).map (fun x => x.id)).Nodup := by
  rw [dedupIns_ids]
  split
  · exact hnd
  · rename_i hnotmem
    rw [List.nodup_append]
    exact ⟨hnd, List.nodup_singleton _, by simpa using hnotmem⟩

theorem foldl_dedupIns_ids_nodup :
    ∀ (l acc : List RawArt), (acc.map (fun x => x.id)).Nodup →
      ((l.foldl dedupIns acc).map (fun x => x.id)).Nodup := by
  intro l
  induction l with
  | nil => intro acc h; exact h
  | cons a t ih =>
    intro acc h
    rw [List.foldl_cons]
    exact ih _ (dedupIns_ids_nodup a h)

theorem dedupL_ids_nodup (l : List RawArt) :
    ((dedupL l).map (fun x => x.id)).Nodup :=
  foldl_dedupIns_ids_nodup l [] (by simp)

theorem lookupId_of_mem_nodup {l : List RawArt} {e : RawArt}
    (hmem : e ∈ l) (hnd : (l.map (fun x => x.id)).Nodup) :
    lookupId l e.id = some e := by
  induction l with
  | nil => simp at hmem
  | cons x xs ih =>
    rcases List.mem_cons.mp hmem with rfl | h2
    · rw [lookupId, if_pos rfl]
    · rw [List.map_cons, List.nodup_cons] at hnd
      have hx : x.id ≠ e.id := by
        intro hEq
        exact hnd.1 (hEq ▸ List.mem_map_of_mem _ h2)
      rw [lookupId, if_neg hx]
      exact ih h2 hnd.2

theorem idOrderGo_mono {fk : List Txt} {aid : Txt} :
    ∀ (raw : List RawArt) (acc : List Txt), aid ∈ acc →
      aid ∈ idOrderGo fk raw acc := by
  intro raw
  induction raw with
  | nil => intro acc h; exact h
  | cons a t ih =>
    intro acc h
    rw [idOrderGo]
    split
    · exact ih _ (List.mem_append_left _ h)
    · exact ih _ h

theorem idOrderGo_mem {fk : List Txt} {aid : Txt} (hfk : fk.contains aid = true) :
    ∀ (raw : List RawArt) (acc : List Txt), aid ∈ raw.map (fun x => x.id) →
      aid ∈ idOrderGo fk raw acc := by
  intro raw
  induction raw with
  | nil => intro acc h; simp at h
  | cons a t ih =>
    intro acc h
    rw [List.map_cons] at h
    rcases List.mem_cons.mp h with rfl | h2
    · by_cases hacc : acc.contains a.id = true
      · have hmem : a.id ∈ acc := List.mem_of_elem_eq_true hacc
        rw [idOrderGo]
        split
        · exact idOrderGo_mono t _ (List.mem_append_left _ hmem)
        · exact idOrderGo_mono t _ hmem
      · have hfalse : acc.contains a.id = false := by
          cases hb : acc.contains a.id
          · rfl
          · exact absurd hb hacc
        have hcond : (fk.contains a.id && !acc.contains a.id) = true := by
          rw [hfk, hfalse]
          rfl
        rw [idOrderGo, if_pos hcond]
        exact idOrderGo_mono t _ (List.mem_append_right _ (List.mem_singleton_self _))
    · rw [idOrderGo]
      split <;> exact ih _ h2

theorem idOrderAux_mem {raw : List RawArt} {fk : List Txt} {aid : Txt}
    (h1 : aid ∈ raw.map (fun x => x.id)) (h2 : fk.contains aid = true) :
    aid ∈ idOrderAux raw fk :=
  idOrderGo_mem h2 raw [] h1

/-- C3: Deleted-article bypass: any dedup survivor flagged
`deleted` is retained by the English segmenter regardless of its body
length, and is emitted with the fixed sentinel body `"(삭제)"` (and the
id suffix `" (삭제)"`). -/
theorem deleted_bypass (text : Txt) (hEpc : hasEpcMark text = false) (e : RawArt)
    (he : e ∈ dedupL (enRawProcessed text)) (hdel : e.deleted = true) :
    (⟨e.id ++ delSuffix, delSentinel, true⟩ : RawArt) ∈ splitEnglish text := by
  have hP : e.id ∈ (enRawProcessed text).map (fun x => x.id) := dedupL_mem_id he
  have hcands : enCandidates text ≠ [] := by
    intro h0
    rw [enRawProcessed, h0] at hP
    simp [rawEnAux, cleanRaw, markDeleted] at hP
  have hef : e ∈ lenFilter (dedupL (enRawProcessed text)) :=
    List.mem_filter.mpr ⟨he, by simp [lenFilter, hdel]⟩
  have hndf : ((lenFilter (dedupL (enRawProcessed text))).map (fun x => x.id)).Nodup :=
    ((List.filter_sublist _).map _).nodup (dedupL_ids_nodup _)
  have hlook : lookupId (lenFilter (dedupL (enRawProcessed text))) e.id = some e :=
    lookupId_of_mem_nodup hef hndf
  have hfk : ((lenFilter (dedupL (enRawProcessed text))).map (fun x => x.id)).contains e.id = true :=
    List.elem_eq_true_of_mem (List.mem_map_of_mem _ hef)
  have hidin : e.id ∈ idOrderAux (enRawProcessed text)
      ((lenFilter (dedupL (enRawProcessed text))).map (fun x => x.id)) :=
    idOrderAux_mem hP hfk
  unfold splitEnglish
  rcases hc : enCandidates text with _ | ⟨⟨s0, n, g1⟩, rest⟩
  · exact absurd hc hcands
  · simp only
    apply List.mem_append_right
    apply List.mem_filterMap.mpr
    refine ⟨e.id, hidin, ?_⟩
    rw [hlook]
    simp [hdel]

/-- Witness for C3: `"Article 7 (deleted)"` has a 19-character body,
far below the 80-character threshold, yet survives as the sentinel. -/
theorem deleted_bypass_witness :
    hasEpcMark "Article 7 (deleted)".toList = false ∧
    (⟨"Article 7".toList, "Article 7 (deleted)".toList, true⟩ : RawArt) ∈
      dedupL (enRawProcessed "Article 7 (deleted)".toList) ∧
    ("Article 7 (deleted)".toList.length < 80 ∧
      (⟨"Article 7 (삭제)".toList, "(삭제)".toList, true⟩ : RawArt) ∈
        splitEnglish "Article 7 (deleted)".toList) := by
  refine ⟨by decide, by decide, by decide, ?_⟩
  exact deleted_bypass "Article 7 (deleted)".toList (by decide)
    ⟨"Article 7".toList, "Article 7 (deleted)".toList, true⟩ (by decide) (by decide)

/-! ## C9: determinism of the structuring transform -/

/-- C9: The structuring transform is deterministic and
side-effect-free: every embedded component — segmenters, decomposers,
and the full text-to-record-stream pipeline — is a total pure function
of its input, so two calls on identical input are (definitionally)
equal.  The only externally latent operation of the source, AI-assisted
title extraction, is outside the embedded core, as the spec's
concurrency model states. -/
theorem segment_deterministic (text : Txt) :
    splitEnglish text = splitEnglish text ∧
    splitChinese text = splitChinese text ∧
    parseParagraphsEn text = parseParagraphsEn text ∧
    parseParagraphsKorean text = parseParagraphsKorean text ∧
    extractRowsZh text = extractRowsZh text :=
  ⟨rfl, rfl, rfl, rfl, rfl⟩

/-! ## C10: the Taiwan path emits exactly one record per article -/

/-- C10: The Chinese/Taiwan decomposer returns zero ParagraphUnits
for every body, and consequently the record stream of the Taiwan
pipeline carries, for every non-preamble article, exactly one
StructuredRecord whose 항/호/목/세목 (paragraph/item/subitem/subsubitem)
fields are all empty and whose text is the whole article body, in
article order. -/
theorem taiwan_single_record (text : Txt) :
    (∀ body : Txt, parseParagraphsAndItemsZh body = []) ∧
    ((extractRowsZh text).filter (fun r => r.aid ≠ jeonmun)).map
        (fun r => (r.para, r.item, r.subitem, r.subsubitem, r.body)) =
      ((splitChinese text).filter (fun a => a.id ≠ jeonmun)).map
        (fun a => (([] : Txt), ([] : Txt), ([] : Txt), ([] : Txt), a.text)) := by
  refine ⟨fun _ => rfl, ?_⟩
  unfold extractRowsZh
  generalize detectHierarchyZh text = hs
  generalize splitChinese text = arts
  induction arts with
  | nil => simp
  | cons a t ih =>
    rw [List.flatMap_cons, List.filter_append, List.map_append]
    by_cases ha : a.id = jeonmun
    · have hrows : (rowForZhArticle text hs a).filter
          (fun r => decide (r.aid ≠ jeonmun)) = [] := by
        rw [List.filter_eq_nil_iff]
        intro r hr
        have haid : r.aid = jeonmun := by
          unfold rowForZhArticle at hr
          rw [if_pos ha] at hr
          rcases hp : parsePreamble a.text with _ | ⟨x, xs⟩ <;> rw [hp] at hr
          · rcases List.mem_singleton.mp hr with rfl
            rfl
          · rcases List.mem_map.mp hr with ⟨⟨lb, tx⟩, _, rfl⟩
            rfl
        simp [haid]
      rw [hrows, List.filter_cons, if_neg (by simp [ha])]
      simpa using ih
    · have hone : rowForZhArticle text hs a =
          [⟨(joinHierarchy hs (zhArticlePos text a)).1,
            (joinHierarchy hs (zhArticlePos text a)).2.1,
            (joinHierarchy hs (zhArticlePos text a)).2.2,
            a.id, zhTitle a.text, [], [], [], [], a.text⟩] := by
        unfold rowForZhArticle
        rw [if_neg ha]
        rfl
      rw [hone, List.filter_cons, List.filter_cons, if_pos (by simp [ha]),
        if_pos (by simp [ha]), List.map_cons, List.map_cons]
      exact congrArg _ (by simpa using ih)

/-! ## C1: marker count and order -/

theorem rawEnAux_length_le (text : Txt) :
    ∀ cands : List (Nat × Nat × Txt), (rawEnAux text cands).length ≤ cands.length := by
  intro cands
  induction cands with
  | nil => simp [rawEnAux]
  | cons c rest ih =>
    rcases c with ⟨s0, n, g1⟩
    rw [rawEnAux.eq_def]
    simp only
    split
    · exact le_trans ih (Nat.le_succ _)
    · split
      · exact le_trans ih (Nat.le_succ _)
      · simpa using ih

theorem rawEnAux_ids_of_full (text : Txt) :
    ∀ cands : List (Nat × Nat × Txt),
      (rawEnAux text cands).length = cands.length →
      (rawEnAux text cands).map (fun a => a.id) =
        cands.map (fun c => pyStrip c.2.2) := by
  intro cands
  induction cands with
  | nil => intro _; simp [rawEnAux]
  | cons c rest ih =>
    intro h
    rcases c with ⟨s0, n, g1⟩
    rw [rawEnAux.eq_def] at h ⊢
    simp only at h ⊢
    split at h
    case isTrue hcond =>
      have hle := rawEnAux_length_le text rest
      simp only [List.length_cons] at h
      omega
    case isFalse hcond =>
      split at h
      case isTrue hcond2 =>
        have hle := rawEnAux_length_le text rest
        simp only [List.length_cons] at h
        omega
      case isFalse hcond2 =>
        rw [if_neg hcond, if_neg hcond2]
        simp only [List.length_cons] at h
        simp only [List.map_cons]
        rw [ih (by omega)]

theorem dedupIns_append_fresh :
    ∀ (acc : List RawArt) (a : RawArt),
      a.id ∉ acc.map (fun x => x.id) → dedupIns acc a = acc ++ [a] := by
  intro acc
  induction acc with
  | nil => intro a _; rfl
  | cons x xs ih =>
    intro a h
    rw [List.map_cons, List.mem_cons] at h
    push_neg at h
    rw [dedupIns, if_neg (fun hEq => h.1 hEq.symm), ih a h.2, List.cons_append]

theorem foldl_dedupIns_eq_append :
    ∀ (l acc : List RawArt), ((acc ++ l).map (fun x => x.id)).Nodup →
      l.foldl dedupIns acc = acc ++ l := by
  intro l
  induction l with
  | nil => intro acc _; simp
  | cons a t ih =>
    intro acc h
    have hfresh : a.id ∉ acc.map (fun x => x.id) := by
      rw [List.map_append, List.nodup_append] at h
      intro hmem
      exact h.2.2 hmem (by rw [List.map_cons]; exact List.mem_cons_self _ _)
    rw [List.foldl_cons, dedupIns_append_fresh acc a hfresh, ih (acc ++ [a]) ?_]
    · rw [List.append_assoc]
      rfl
    · rw [List.append_assoc]
      simpa using h

theorem dedupL_eq_self {l : List RawArt} (h : (l.map (fun x => x.id)).Nodup) :
    dedupL l = l := by
  have h2 := foldl_dedupIns_eq_append l [] (by simpa using h)
  simpa [dedupL] using h2

theorem idOrderGo_full {fk : List Txt} :
    ∀ (raw : List RawArt) (acc : List Txt),
      (∀ a ∈ raw, fk.contains a.id = true) →
      ((acc ++ raw.map (fun x => x.id)).Nodup) →
      idOrderGo fk raw acc = acc ++ raw.map (fun x => x.id) := by
  intro raw
  induction raw with
  | nil => intro acc _ _; simp [idOrderGo]
  | cons a t ih =>
    intro acc hfk hnd
    have hnotacc : a.id ∉ acc := by
      intro hmem
      rw [List.map_cons, List.nodup_append] at hnd
      exact hnd.2.2 hmem (List.mem_cons_self _ _)
    have haccF : acc.contains a.id = false := by
      cases hb : acc.contains a.id
      · rfl
      · exact absurd (List.mem_of_elem_eq_true hb) hnotacc
    rw [idOrderGo, if_pos (by rw [hfk a (List.mem_cons_self _ _), haccF]; rfl)]
    rw [ih (acc ++ [a.id]) (fun b hb => hfk b (List.mem_cons_of_mem _ hb)) ?_]
    · rw [List.append_assoc]
      rfl
    · rw [List.append_assoc]
      simpa using hnd

theorem emit_full :
    ∀ (P Q : List RawArt), (P.map (fun x => x.id)).Nodup →
      (∀ a ∈ P, a.deleted = false) →
      (∀ aid ∈ P.map (fun x => x.id), lookupId Q aid = lookupId P aid) →
      (P.map (fun x => x.id)).filterMap (fun aid => (lookupId Q aid).map
        (fun e => if e.deleted then ⟨e.id ++ delSuffix, delSentinel, true⟩ else e)) = P := by
  intro P
  induction P with
  | nil => intro Q _ _ _; simp
  | cons e rest ih =>
    intro Q hnd hdel hQ
    have h1 : lookupId Q e.id = some e := by
      rw [hQ e.id (by rw [List.map_cons]; exact List.mem_cons_self _ _),
        lookupId, if_pos rfl]
    have hd := hdel e (List.mem_cons_self _ _)
    have hfa : (lookupId Q e.id).map
        (fun x => if x.deleted then (⟨x.id ++ delSuffix, delSentinel, true⟩ : RawArt) else x) =
        some e := by
      rw [h1, Option.map_some', if_neg (by simp [hd])]
    rw [List.map_cons]
    simp only [List.filterMap_cons, hfa]
    congr 1
    rw [List.map_cons, List.nodup_cons] at hnd
    apply ih Q hnd.2 (fun a ha => hdel a (List.mem_cons_of_mem _ ha))
    intro aid hmem
    have hne : e.id ≠ aid := by
      intro hEq
      exact hnd.1 (hEq ▸ hmem)
    rw [hQ aid (by rw [List.map_cons]; exact List.mem_cons_of_mem _ hmem),
      lookupId, if_neg hne]

theorem isPySpace_eq_false_of_alpha {c : Char} (h : isAsciiAlpha c = true) :
    isPySpace c = false := by
  cases hsp : isPySpace c
  · rfl
  · exfalso
    unfold isPySpace at hsp
    rw [Bool.or_eq_true, Bool.or_eq_true, Bool.or_eq_true, Bool.or_eq_true,
      Bool.or_eq_true] at hsp
    rcases hsp with ((((h1 | h1) | h1) | h1) | h1) | h1 <;>
      first
      | (rw [of_decide_eq_true h1] at h; simp [isAsciiAlpha] at h)

theorem dropWhile_append_singleton {p : Char → Bool} {c : Char} (h : p c = false) :
    ∀ l : Txt, ∃ u, ((l ++ [c]).dropWhile p) = u ++ [c] := by
  intro l
  induction l with
  | nil =>
    refine ⟨[], ?_⟩
    simp [List.dropWhile, h]
  | cons x xs ih =>
    by_cases hx : p x = true
    · rcases ih with ⟨u, hu⟩
      refine ⟨u, ?_⟩
      rw [List.cons_append, List.dropWhile_cons, if_pos hx, hu]
    · refine ⟨x :: xs, ?_⟩
      rw [List.cons_append, List.dropWhile_cons, if_neg hx]

theorem pyStrip_cons_of_nonspace {c : Char} (t : Txt) (h : isPySpace c = false) :
    ∃ u, pyStrip (c :: t) = c :: u := by
  unfold pyStrip
  rw [List.dropWhile_cons, if_neg (by simp [h])]
  rw [List.reverse_cons]
  rcases dropWhile_append_singleton h t.reverse with ⟨u, hu⟩
  refine ⟨u.reverse, ?_⟩
  rw [hu, List.reverse_append]
  rfl

theorem matchAltCI_some {kws : List Txt} {s : Txt} {n : Nat}
    (h : matchAltCI kws s = some n) :
    ∃ kw ∈ kws, n = kw.length ∧ hasPre kw (lowerTxt (s.take kw.length)) = true := by
  induction kws with
  | nil => simp [matchAltCI] at h
  | cons kw rest ih =>
    rw [matchAltCI] at h
    rcases hk : matchKwCI kw s with _ | m <;> rw [hk] at h
    · rcases ih h with ⟨kw2, hmem, hrest⟩
      exact ⟨kw2, List.mem_cons_of_mem _ hmem, hrest⟩
    · unfold matchKwCI at hk
      split at hk
      · rename_i hpre
        cases hk
        cases h
        exact ⟨kw, List.mem_cons_self _ _, rfl, hpre⟩
      · simp at hk

theorem isAsciiAlpha_of_toLower {c d : Char} (h : toLowerCh c = d)
    (hd1 : ('a' ≤ d) = True) (hd2 : (d ≤ 'z') = True) : isAsciiAlpha c = true := by
  unfold toLowerCh at h
  split at h
  · rename_i hAZ
    simp [isAsciiAlpha, hAZ]
  · subst h
    simp only [isAsciiAlpha, Bool.or_eq_true, Bool.and_eq_true, decide_eq_true_eq]
    left
    exact ⟨hd1 ▸ trivial, hd2 ▸ trivial⟩

theorem enHeaderCore_payload {s : Txt} {n : Nat} {g : Txt}
    (h : enHeaderCore s = some (n, g)) :
    ∃ c t, g = c :: t ∧ isAsciiAlpha c = true := by
  unfold enHeaderCore at h
  rcases halt : matchAltCI
      ["article".toList, "section".toList, "rule".toList, "regulation".toList] s
      with _ | kwLen <;> rw [halt] at h
  · simp at h
  · simp only [] at h
    split at h
    · simp at h
    · split at h
      · simp at h
      · split at h
        · rcases matchAltCI_some halt with ⟨kw, hmem, hlen, hpre⟩
          have hkw : ∃ k0 krest, kw = k0 :: krest ∧
              ('a' ≤ k0) = True ∧ (k0 ≤ 'z') = True := by
            fin_cases hmem <;> exact ⟨_, _, rfl, by simp, by simp⟩
          rcases hkw with ⟨k0, krest, rfl, hk1, hk2⟩
          have hkpos : 1 ≤ kwLen := by
            rw [hlen]
            simp
          rcases hs2 : s with _ | ⟨c, t0⟩
          · rw [hs2] at hpre
            simp [lowerTxt, hasPre] at hpre
          · have hlowhead : toLowerCh c = k0 := by
              rw [hs2] at hpre
              rcases kwLen with _ | kl
              · omega
              · simp only [List.take_succ_cons, lowerTxt, List.map_cons, hasPre,
                  Bool.and_eq_true, decide_eq_true_eq] at hpre
                exact hpre.1.symm
            have halpha := isAsciiAlpha_of_toLower hlowhead hk1 hk2
            rw [hs2] at h
            injection h with h2
            rw [Prod.mk.injEq] at h2
            obtain ⟨hn, hg⟩ := h2
            rw [hn] at hg
            have hn1 : 1 ≤ n := by
              rw [← hn]
              omega
            rcases n with _ | n2
            · omega
            · refine ⟨c, t0.take n2, ?_, halpha⟩
              rw [← hg]
              rfl
        · simp at h

theorem matchEnHeader_payload {prev : Option Char} {s : Txt} {n : Nat} {g : Txt}
    (h : matchEnHeader prev s = some (n, g)) :
    ∃ c t, g = c :: t ∧ isAsciiAlpha c = true := by
  have hmap : ∀ (u : Txt), (enHeaderCore u).map
      (fun (n, a) => (n + 1, a)) = some (n, g) →
      ∃ c t, g = c :: t ∧ isAsciiAlpha c = true := by
    intro u hu
    rcases hcore : enHeaderCore u with _ | ⟨n2, g2⟩ <;> rw [hcore] at hu
    · simp at hu
    · simp only [Option.map_some'] at hu
      injection hu with h2
      rw [Prod.mk.injEq] at h2
      rcases enHeaderCore_payload hcore with ⟨c, t, hgt, ha⟩
      exact ⟨c, t, h2.2 ▸ hgt, ha⟩
  unfold matchEnHeader anchorNl at h
  split at h
  · split at h
    · rename_i r heq
      injection h with h2
      rw [h2] at heq
      exact enHeaderCore_payload heq
    · split at h
      · exact hmap _ h
      · simp at h
  · split at h
    · exact hmap _ h
    · simp at h

theorem scanIterF_payload {α : Type} (m : Option Char → Txt → Option (Nat × α))
    (Q : α → Prop) (hm : ∀ prev s n a, m prev s = some (n, a) → Q a) :
    ∀ (fuel : Nat) (prev : Option Char) (pos : Nat) (s : Txt),
      ∀ x ∈ scanIterF m fuel prev pos s, Q x.2.2 := by
  intro fuel
  induction fuel with
  | zero =>
    intro prev pos s x hx
    simp [scanIterF] at hx
  | succ f ih =>
    intro prev pos s x hx
    cases s with
    | nil => simp [scanIterF] at hx
    | cons c t =>
      rw [scanIterF.eq_def] at hx
      simp only [] at hx
      rcases hm2 : m prev (c :: t) with _ | ⟨k, a⟩ <;> rw [hm2] at hx
      · exact ih _ _ _ x hx
      · rcases List.mem_cons.mp hx with rfl | h2
        · exact hm _ _ _ _ hm2
        · exact ih _ _ _ x h2

theorem scanIter_payload {α : Type} (m : Option Char → Txt → Option (Nat × α))
    (Q : α → Prop) (hm : ∀ prev s n a, m prev s = some (n, a) → Q a)
    (prev : Option Char) (pos : Nat) (s : Txt) :
    ∀ x ∈ scanIter m prev pos s, Q x.2.2 :=
  scanIterF_payload m Q hm s.length prev pos s

/-- Every candidate's stripped group 1 starts with an ASCII letter. -/
theorem enCandidates_id_head (text : Txt) :
    ∀ x ∈ enCandidates text, ∃ c t, pyStrip x.2.2 = c :: t ∧ isAsciiAlpha c = true := by
  intro x hx
  refine scanIter_payload matchEnHeader
    (fun g => ∃ c t, pyStrip g = c :: t ∧ isAsciiAlpha c = true) ?_ none 0 text x hx
  intro prev s k g hmatch
  rcases matchEnHeader_payload hmatch with ⟨c, t, rfl, ha⟩
  rcases pyStrip_cons_of_nonspace t (isPySpace_eq_false_of_alpha ha) with ⟨u, hu⟩
  exact ⟨c, u, hu, ha⟩

theorem rawEnAux_id_from_cand (text : Txt) :
    ∀ cands : List (Nat × Nat × Txt), ∀ a ∈ rawEnAux text cands,
      ∃ c ∈ cands, a.id = pyStrip c.2.2 := by
  intro cands
  induction cands with
  | nil =>
    intro a ha
    simp [rawEnAux] at ha
  | cons c rest ih =>
    intro a ha
    rcases c with ⟨s0, k, g1⟩
    rw [rawEnAux.eq_def] at ha
    simp only at ha
    split at ha
    · rcases ih a ha with ⟨c2, hc2, hid⟩
      exact ⟨c2, List.mem_cons_of_mem _ hc2, hid⟩
    · split at ha
      · rcases ih a ha with ⟨c2, hc2, hid⟩
        exact ⟨c2, List.mem_cons_of_mem _ hc2, hid⟩
      · rcases List.mem_cons.mp ha with rfl | h2
        · exact ⟨(s0, k, g1), List.mem_cons_self _ _, rfl⟩
        · rcases ih a h2 with ⟨c2, hc2, hid⟩
          exact ⟨c2, List.mem_cons_of_mem _ hc2, hid⟩

/-- Article ids produced by the English splitter's first pass never
collide with the synthetic preamble id. -/
theorem enRawProcessed_id_ne_jeonmun (text : Txt) :
    ∀ a ∈ enRawProcessed text, a.id ≠ jeonmun := by
  intro a ha hEq
  have hidsrc : a.id ∈ (rawEnAux text (enCandidates text)).map (fun x => x.id) := by
    have : a.id ∈ (enRawProcessed text).map (fun x => x.id) := List.mem_map_of_mem _ ha
    rw [enRawProcessed_ids] at this
    exact this
  rcases List.mem_map.mp hidsrc with ⟨y, hy, hyid⟩
  rcases rawEnAux_id_from_cand text _ y hy with ⟨c2, hc2, hid⟩
  rcases enCandidates_id_head text c2 hc2 with ⟨ch, t, hstrip, halpha⟩
  have : a.id = ch :: t := by rw [← hyid, hid, hstrip]
  rw [hEq] at this
  have hch : ch = '전' := by
    have := congrArg (fun l => l.headI) this
    simpa [jeonmun] using this.symm
  rw [hch] at halpha
  simp [isAsciiAlpha] at halpha

theorem filter_ne_jeonmun_pre (pre emitted : List RawArt)
    (hpre : ∀ a ∈ pre, a.id = jeonmun) (hem : ∀ a ∈ emitted, a.id ≠ jeonmun) :
    (pre ++ emitted).filter (fun a => a.id ≠ jeonmun) = emitted := by
  rw [List.filter_append, List.filter_eq_nil_iff.mpr ?h1, List.filter_eq_self.mpr ?h2,
    List.nil_append]
  case h1 =>
    intro a ha
    simp [hpre a ha]
  case h2 =>
    intro a ha
    simp [hem a ha]

/-- C1 (amended): For any text, when no candidate is dropped by the
empty-chunk/implausible-numeral pass (`hAll`), every cleaned candidate
body meets the 80-character minimum (`hLen`), no candidate carries a
deletion marker (`hDel`) and the normalized ids are pairwise distinct
(`hNd`), the English segmenter returns — besides the synthetic
preamble — exactly one Article unit per line-anchored marker, in marker
order, with exactly the markers' normalized ids. -/
theorem segment_count_order (text : Txt) (hEpc : hasEpcMark text = false)
    (hAll : (rawEnAux text (enCandidates text)).length = (enCandidates text).length)
    (hLen : ∀ a ∈ enRawProcessed text, 80 ≤ a.text.length)
    (hDel : ∀ a ∈ enRawProcessed text, a.deleted = false)
    (hNd : ((enRawProcessed text).map (fun a => a.id)).Nodup) :
    (splitEnglish text).filter (fun a => a.id ≠ jeonmun) = enRawProcessed text ∧
    (enRawProcessed text).map (fun a => a.id) =
      (enCandidates text).map (fun c => pyStrip c.2.2) ∧
    ((splitEnglish text).filter (fun a => a.id ≠ jeonmun)).length =
      (enCandidates text).length := by
  have hids : (enRawProcessed text).map (fun a => a.id) =
      (enCandidates text).map (fun c => pyStrip c.2.2) := by
    rw [enRawProcessed_ids]
    exact rawEnAux_ids_of_full text _ hAll
  have hmain : (splitEnglish text).filter (fun a => a.id ≠ jeonmun) =
      enRawProcessed text := by
    unfold splitEnglish
    rcases hc : enCandidates text with _ | ⟨⟨s0, k, g1⟩, rest⟩
    · have hP : enRawProcessed text = [] := by
        unfold enRawProcessed
        rw [hc]
        rfl
      rw [hP]
      split
      · rfl
      · simp [jeonmun]
    · have hded : dedupL (enRawProcessed text) = enRawProcessed text :=
        dedupL_eq_self hNd
      have hfil : lenFilter (dedupL (enRawProcessed text)) = enRawProcessed text := by
        rw [hded]
        unfold lenFilter
        rw [List.filter_eq_self.mpr]
        intro a ha
        simp [hLen a ha]
      have hfull : idOrderAux (enRawProcessed text)
          ((lenFilter (dedupL (enRawProcessed text))).map (fun a => a.id)) =
          (enRawProcessed text).map (fun a => a.id) := by
        rw [hfil]
        have h2 := @idOrderGo_full ((enRawProcessed text).map (fun a => a.id))
          (enRawProcessed text) []
          (fun a ha => List.elem_eq_true_of_mem (List.mem_map_of_mem _ ha))
          (by simpa using hNd)
        simpa [idOrderAux] using h2
      have hemit : ((enRawProcessed text).map (fun a => a.id)).filterMap (fun aid =>
          (lookupId (lenFilter (dedupL (enRawProcessed text))) aid).map
            (fun e => if e.deleted then ⟨e.id ++ delSuffix, delSentinel, true⟩ else e)) =
          enRawProcessed text := by
        apply emit_full (enRawProcessed text) _ hNd hDel
        intro aid hmem
        rw [hfil]
      simp only
      rw [hfull, hemit]
      apply filter_ne_jeonmun_pre
      · intro a ha
        split at ha
        · simp at ha
        · rcases List.mem_singleton.mp ha with rfl
          rfl
      · exact enRawProcessed_id_ne_jeonmun text
  refine ⟨hmain, hids, ?_⟩
  rw [hmain]
  have hlen2 := congrArg List.length hids
  simpa using hlen2

/-- C1 counterexample: `"Article 1 x"` holds exactly one
line-anchored marker with no duplicate id, yet the segmenter returns no
Article unit at all: the 11-character body falls under the
minimum-content threshold. -/
theorem segment_count_counterexample :
    (enCandidates "Article 1 x".toList).length = 1 ∧
    ((enCandidates "Article 1 x".toList).map (fun c => pyStrip c.2.2)).Nodup ∧
    splitEnglish "Article 1 x".toList = [] := by
  refine ⟨by decide, by decide, by decide⟩

/-- Witness for C1 (amended): a text with two well-formed articles whose
bodies meet the threshold yields exactly two units, in marker order. -/
theorem segment_count_order_witness :
    (enCandidates "Article 1\nxxxxxxxxxxxxxxxxxxxxxxxxxxxxxxxxxxxxxxxxxxxxxxxxxxxxxxxxxxxxxxxxxxxxxxxxxxxxxxxx\nArticle 2\nyyyyyyyyyyyyyyyyyyyyyyyyyyyyyyyyyyyyyyyyyyyyyyyyyyyyyyyyyyyyyyyyyyyyyyyyyyyyyyyy".toList).length = 2 ∧
    (rawEnAux "Article 1\nxxxxxxxxxxxxxxxxxxxxxxxxxxxxxxxxxxxxxxxxxxxxxxxxxxxxxxxxxxxxxxxxxxxxxxxxxxxxxxxx\nArticle 2\nyyyyyyyyyyyyyyyyyyyyyyyyyyyyyyyyyyyyyyyyyyyyyyyyyyyyyyyyyyyyyyyyyyyyyyyyyyyyyyyy".toList (enCandidates "Article 1\nxxxxxxxxxxxxxxxxxxxxxxxxxxxxxxxxxxxxxxxxxxxxxxxxxxxxxxxxxxxxxxxxxxxxxxxxxxxxxxxx\nArticle 2\nyyyyyyyyyyyyyyyyyyyyyyyyyyyyyyyyyyyyyyyyyyyyyyyyyyyyyyyyyyyyyyyyyyyyyyyyyyyyyyyy".toList)).length =
      (enCandidates "Article 1\nxxxxxxxxxxxxxxxxxxxxxxxxxxxxxxxxxxxxxxxxxxxxxxxxxxxxxxxxxxxxxxxxxxxxxxxxxxxxxxxx\nArticle 2\nyyyyyyyyyyyyyyyyyyyyyyyyyyyyyyyyyyyyyyyyyyyyyyyyyyyyyyyyyyyyyyyyyyyyyyyyyyyyyyyy".toList).length ∧
    ((splitEnglish "Article 1\nxxxxxxxxxxxxxxxxxxxxxxxxxxxxxxxxxxxxxxxxxxxxxxxxxxxxxxxxxxxxxxxxxxxxxxxxxxxxxxxx\nArticle 2\nyyyyyyyyyyyyyyyyyyyyyyyyyyyyyyyyyyyyyyyyyyyyyyyyyyyyyyyyyyyyyyyyyyyyyyyyyyyyyyyy".toList).filter (fun a => a.id ≠ jeonmun)).length =
      (enCandidates "Article 1\nxxxxxxxxxxxxxxxxxxxxxxxxxxxxxxxxxxxxxxxxxxxxxxxxxxxxxxxxxxxxxxxxxxxxxxxxxxxxxxxx\nArticle 2\nyyyyyyyyyyyyyyyyyyyyyyyyyyyyyyyyyyyyyyyyyyyyyyyyyyyyyyyyyyyyyyyyyyyyyyyyyyyyyyyy".toList).length ∧
    ((splitEnglish "Article 1\nxxxxxxxxxxxxxxxxxxxxxxxxxxxxxxxxxxxxxxxxxxxxxxxxxxxxxxxxxxxxxxxxxxxxxxxxxxxxxxxx\nArticle 2\nyyyyyyyyyyyyyyyyyyyyyyyyyyyyyyyyyyyyyyyyyyyyyyyyyyyyyyyyyyyyyyyyyyyyyyyyyyyyyyyy".toList).filter (fun a => a.id ≠ jeonmun)).map (fun a => a.id) =
      (enCandidates "Article 1\nxxxxxxxxxxxxxxxxxxxxxxxxxxxxxxxxxxxxxxxxxxxxxxxxxxxxxxxxxxxxxxxxxxxxxxxxxxxxxxxx\nArticle 2\nyyyyyyyyyyyyyyyyyyyyyyyyyyyyyyyyyyyyyyyyyyyyyyyyyyyyyyyyyyyyyyyyyyyyyyyyyyyyyyyy".toList).map (fun c => pyStrip c.2.2) := by
  have h := segment_count_order "Article 1\nxxxxxxxxxxxxxxxxxxxxxxxxxxxxxxxxxxxxxxxxxxxxxxxxxxxxxxxxxxxxxxxxxxxxxxxxxxxxxxxx\nArticle 2\nyyyyyyyyyyyyyyyyyyyyyyyyyyyyyyyyyyyyyyyyyyyyyyyyyyyyyyyyyyyyyyyyyyyyyyyyyyyyyyyy".toList (by decide) (by decide) (by decide)
    (by decide) (by decide)
  refine ⟨by decide, by decide, h.2.2, ?_⟩
  rw [h.1, h.2.1]
